import Mathlib

/-!
Verification of the bit-packed trie node tables of kenlm (src/lm/trie_node.cc)
and the pruning-threshold parsing of the model builder front end
(src/lm/builder/lmplz_main.cc).

The byte buffer backing a table is modelled at the bit level as a total
function from bit positions to booleans.  Bit offsets in the C++ source are
split into a byte pointer `base + (off >> 3)` and a bit-in-byte offset
`off & 7`; in this model the two always recombine to the flat bit offset
`off`, so the codec operations below take flat bit offsets.  Machine floats
are represented by their IEEE-754 bit patterns as natural numbers below
2^32; a float is non-positive exactly when its sign bit is set (with the
pattern 2^31, that of -0.0, standing for zero).
-/

/-- A byte buffer addressed at bit granularity. -/
def Mem : Type := Nat → Bool

/-- The all-zero buffer. -/
def memZero : Mem := fun _ => false

/-- Modelled from the spec: the bit-field codec (util/bit_packing.hh is not in
src/) writes an unsigned integer field of width `n` bits at flat bit offset
`off`, masking the value to its low `n` bits. -/
def writeBits (m : Mem) (off n v : Nat) : Mem :=
  fun i => if off ≤ i ∧ i < off + n then v.testBit (i - off) else m i

/-- Modelled from the spec: the bit-field codec reads an unsigned integer
field of width `n` bits at flat bit offset `off` (least significant bit
first, matching the write direction). -/
def readBits (m : Mem) (off : Nat) : Nat → Nat
  | 0 => 0
  | n + 1 => readBits m off n + (if m (off + n) then 2 ^ n else 0)

/-- Modelled from the spec: `util::WriteInt57` places the value of a field of
`n` bits (`n ≤ 57` in all uses) at a bit offset; the field width is the one
implied by the mask the matching read uses. -/
def WriteInt57 (m : Mem) (off n v : Nat) : Mem := writeBits m off n v

/-- Modelled from the spec: `util::ReadInt57` reads an `n`-bit unsigned field
at a bit offset; the C++ call sites pass the mask `2^n - 1`. -/
def ReadInt57 (m : Mem) (off n : Nat) : Nat := readBits m off n

/-- Modelled from the spec: `util::WriteNonPositiveFloat31` stores a
non-positive float by dropping the (set) sign bit of its 32-bit pattern and
writing the remaining 31 bits. -/
def WriteNonPositiveFloat31 (m : Mem) (off v : Nat) : Mem := writeBits m off 31 v

/-- Modelled from the spec: `util::ReadNonPositiveFloat31` reads 31 bits and
restores the sign bit, yielding the pattern of a non-positive float. -/
def ReadNonPositiveFloat31 (m : Mem) (off : Nat) : Nat := 2 ^ 31 + readBits m off 31

/-- Modelled from the spec: `util::WriteFloat32` stores a plain 32-bit IEEE
float pattern. -/
def WriteFloat32 (m : Mem) (off v : Nat) : Mem := writeBits m off 32 v

/-- Modelled from the spec: `util::ReadFloat32` reads a plain 32-bit IEEE
float pattern. -/
def ReadFloat32 (m : Mem) (off : Nat) : Nat := readBits m off 32

theorem writeBits_apply_of_notin (m : Mem) (off n v i : Nat)
    (h : i < off ∨ off + n ≤ i) : writeBits m off n v i = m i := by
  unfold writeBits
  rcases h with h | h
  · rw [if_neg]
    rintro ⟨h1, _⟩
    omega
  · rw [if_neg]
    rintro ⟨_, h2⟩
    omega

theorem writeBits_apply_of_mem (m : Mem) (off n v i : Nat)
    (h1 : off ≤ i) (h2 : i < off + n) : writeBits m off n v i = v.testBit (i - off) := by
  unfold writeBits
  rw [if_pos ⟨h1, h2⟩]

theorem readBits_congr (m1 m2 : Mem) (off n : Nat)
    (h : ∀ j, j < n → m1 (off + j) = m2 (off + j)) :
    readBits m1 off n = readBits m2 off n := by
  induction n with
  | zero => rfl
  | succ k ih =>
    unfold readBits
    rw [ih fun j hj => h j (Nat.lt_succ_of_lt hj), h k (Nat.lt_succ_self k)]

theorem readBits_writeBits_of_disjoint (m : Mem) (off n v off2 n2 : Nat)
    (h : off2 + n2 ≤ off ∨ off + n ≤ off2) :
    readBits (writeBits m off n v) off2 n2 = readBits m off2 n2 := by
  apply readBits_congr
  intro j hj
  apply writeBits_apply_of_notin
  omega

theorem readBits_of_testBit (m : Mem) (off n v : Nat)
    (h : ∀ j, j < n → m (off + j) = v.testBit j) :
    readBits m off n = v % 2 ^ n := by
  induction n with
  | zero => rw [pow_zero, Nat.mod_one]; rfl
  | succ k ih =>
    unfold readBits
    rw [ih fun j hj => h j (Nat.lt_succ_of_lt hj), h k (Nat.lt_succ_self k)]
    have hmul : v % (2 ^ k * 2) = v % 2 ^ k + 2 ^ k * (v / 2 ^ k % 2) := Nat.mod_mul
    rw [pow_succ, hmul, Nat.testBit_to_div_mod]
    rcases Nat.mod_two_eq_zero_or_one (v / 2 ^ k) with h0 | h1
    · rw [h0]
      simp
    · rw [h1]
      simp

theorem readBits_writeBits_self (m : Mem) (off n v : Nat) :
    readBits (writeBits m off n v) off n = v % 2 ^ n := by
  apply readBits_of_testBit
  intro j hj
  rw [writeBits_apply_of_mem m off n v (off + j) (Nat.le_add_right off j) (by omega)]
  congr 1
  omega

theorem readBits_writeBits_self_of_lt (m : Mem) (off n v : Nat) (h : v < 2 ^ n) :
    readBits (writeBits m off n v) off n = v := by
  rw [readBits_writeBits_self, Nat.mod_eq_of_lt h]

/-- Fuel-bounded helper for `RequiredBits`: counts the binary digits of `n`,
recursing at most `fuel` times (the C++ domain is `uint64_t`, so 64 suffices). -/
def bitsAux : Nat → Nat → Nat
  | 0, _ => 0
  | fuel + 1, n => if n = 0 then 0 else bitsAux fuel (n / 2) + 1

/-- Modelled from the spec: `util::RequiredBits` (util/bit_packing.hh is not
in src/) is the number of bits needed to represent `max_value`: 0 for 0,
otherwise one more than the floor base-2 logarithm.  The argument is a
`uint64_t`, so 64 iterations always reach the answer. -/
def RequiredBits (max_value : Nat) : Nat := bitsAux 64 max_value

theorem bitsAux_le (fuel n : Nat) : bitsAux fuel n ≤ fuel := by
  induction fuel generalizing n with
  | zero => exact Nat.le_refl 0
  | succ k ih =>
    unfold bitsAux
    by_cases h : n = 0
    · rw [if_pos h]
      exact Nat.zero_le _
    · rw [if_neg h]
      exact Nat.succ_le_succ (ih (n / 2))

theorem lt_two_pow_bitsAux (fuel n : Nat) (h : n < 2 ^ fuel) :
    n < 2 ^ bitsAux fuel n := by
  induction fuel generalizing n with
  | zero =>
    rw [pow_zero] at h
    exact h
  | succ k ih =>
    unfold bitsAux
    by_cases h0 : n = 0
    · rw [if_pos h0, h0, pow_zero]
      exact Nat.one_pos
    · rw [if_neg h0]
      have hdiv : n / 2 < 2 ^ k := by
        rw [Nat.div_lt_iff_lt_mul (by norm_num : 0 < 2)]
        calc n < 2 ^ (k + 1) := h
          _ = 2 ^ k * 2 := by rw [pow_succ]
      have hih := ih (n / 2) hdiv
      have : n < 2 * (n / 2) + 2 := by omega
      calc n < 2 * (n / 2) + 2 := this
        _ ≤ 2 * 2 ^ bitsAux k (n / 2) := by omega
        _ = 2 ^ (bitsAux k (n / 2) + 1) := by rw [pow_succ, Nat.mul_comm]

theorem bitsAux_zero (fuel : Nat) : bitsAux fuel 0 = 0 := by
  cases fuel <;> simp [bitsAux]

theorem two_pow_pred_bitsAux_le (fuel n : Nat) (h : 1 ≤ n) :
    2 ^ (bitsAux fuel n - 1) ≤ n := by
  induction fuel generalizing n with
  | zero =>
    unfold bitsAux
    rw [pow_zero]
    exact h
  | succ k ih =>
    unfold bitsAux
    rw [if_neg (by omega : n ≠ 0), Nat.add_sub_cancel]
    rcases Nat.eq_zero_or_pos (bitsAux k (n / 2)) with hb | hb
    · rw [hb, pow_zero]
      exact h
    · have hd : 1 ≤ n / 2 := by
        by_contra hcon
        have hz : n / 2 = 0 := by omega
        rw [hz, bitsAux_zero] at hb
        omega
      have hih := ih (n / 2) hd
      have h2 : 2 ^ bitsAux k (n / 2) = 2 ^ (bitsAux k (n / 2) - 1) * 2 := by
        conv_lhs => rw [show bitsAux k (n / 2) = bitsAux k (n / 2) - 1 + 1 by omega]
        rw [pow_succ]
      rw [h2]
      calc 2 ^ (bitsAux k (n / 2) - 1) * 2 ≤ n / 2 * 2 := Nat.mul_le_mul_right 2 hih
        _ ≤ n := Nat.div_mul_le_self n 2

theorem lt_two_pow_RequiredBits (n : Nat) (h : n < 2 ^ 64) :
    n < 2 ^ RequiredBits n := lt_two_pow_bitsAux 64 n h

theorem RequiredBits_gt_57_iff (n : Nat) (h : n < 2 ^ 64) :
    57 < RequiredBits n ↔ 2 ^ 57 ≤ n := by
  constructor
  · intro hgt
    have hn : n ≠ 0 := by
      intro hz
      rw [hz] at hgt
      rw [RequiredBits, bitsAux_zero] at hgt
      omega
    have hle := two_pow_pred_bitsAux_le 64 n (by omega)
    calc 2 ^ 57 ≤ 2 ^ (bitsAux 64 n - 1) := by
          apply Nat.pow_le_pow_right (by norm_num)
          have : 57 < bitsAux 64 n := hgt
          omega
      _ ≤ n := hle
  · intro hge
    have hlt := lt_two_pow_RequiredBits n h
    have : 2 ^ 57 < 2 ^ RequiredBits n := Nat.lt_of_le_of_lt hge hlt
    exact (Nat.pow_lt_pow_iff_right (by norm_num : 1 < 2)).mp this

/-- Modelled from the spec: helper for the sorted-search primitive
(util/sorted_uniform.hh is not in src/): scan indices `b, b+1, ...` for at
most `fuel` steps, returning the first index whose key equals `target`. -/
def searchFrom (key : Nat → Nat) (b target : Nat) : Nat → Option Nat
  | 0 => none
  | fuel + 1 => if key b = target then some b else searchFrom key (b + 1) target fuel

/-- Modelled from the spec: `util::SortedUniformFind` is a generic exact-match
search over the ascending, unique-keyed random-access sequence of keys on
`[begin_index, end_index)`; it returns the matching index or "not found",
and an empty range always yields "not found". -/
def SortedUniformFind (key : Nat → Nat) (begin_index end_index target : Nat) : Option Nat :=
  searchFrom key begin_index target (end_index - begin_index)

theorem searchFrom_eq_some (key : Nat → Nat) (b target k : Nat) (fuel : Nat)
    (hbk : b ≤ k) (hk : k < b + fuel) (hit : key k = target)
    (hbefore : ∀ j, b ≤ j → j < k → key j ≠ target) :
    searchFrom key b target fuel = some k := by
  induction fuel generalizing b with
  | zero => omega
  | succ f ih =>
    unfold searchFrom
    by_cases hb : b = k
    · rw [hb, if_pos hit]
    · rw [if_neg (hbefore b (Nat.le_refl b) (by omega))]
      exact ih (b + 1) (by omega) (by omega) fun j hj1 hj2 => hbefore j (by omega) hj2

theorem searchFrom_eq_none (key : Nat → Nat) (b target : Nat) (fuel : Nat)
    (hmiss : ∀ j, b ≤ j → j < b + fuel → key j ≠ target) :
    searchFrom key b target fuel = none := by
  induction fuel generalizing b with
  | zero => rfl
  | succ f ih =>
    unfold searchFrom
    rw [if_neg (hmiss b (Nat.le_refl b) (by omega))]
    exact ih (b + 1) fun j hj1 hj2 => hmiss j (by omega) (by omega)

theorem SortedUniformFind_eq_some (key : Nat → Nat) (b e target k : Nat)
    (hbk : b ≤ k) (hke : k < e) (hit : key k = target)
    (hbefore : ∀ j, b ≤ j → j < k → key j ≠ target) :
    SortedUniformFind key b e target = some k := by
  unfold SortedUniformFind
  exact searchFrom_eq_some key b target k (e - b) hbk (by omega) hit hbefore

theorem SortedUniformFind_eq_none (key : Nat → Nat) (b e target : Nat)
    (hmiss : ∀ j, b ≤ j → j < e → key j ≠ target) :
    SortedUniformFind key b e target = none := by
  unfold SortedUniformFind
  exact searchFrom_eq_none key b target (e - b) fun j hj1 hj2 => hmiss j hj1 (by omega)

/-- An index pair bounding one parent's contiguous children in the next
order's table (lm/trie_node.hh `NodeRange`); the C++ fields are named
`begin` and `end`, the latter a Lean keyword, hence the underscores. -/
structure NodeRange where
  begin_ : Nat
  end_ : Nat
deriving DecidableEq

/-- State of `lm::trie::BitPacked`, the base of both table kinds
(src/lm/trie_node.cc): backing buffer and the field widths fixed by
`BaseInit`, plus the insert cursor.  `BitPackedLongest` adds no fields, so
the terminal-order table is represented by this structure directly. -/
structure BitPacked where
  base : Mem
  word_bits : Nat
  word_mask : Nat
  prob_bits : Nat
  total_bits : Nat
  insert_index : Nat

/-- State of `lm::trie::BitPackedMiddle`: the base fields plus the backoff
and next-pointer field widths fixed by `Init`. -/
structure BitPackedMiddle where
  base : Mem
  word_bits : Nat
  word_mask : Nat
  prob_bits : Nat
  total_bits : Nat
  insert_index : Nat
  backoff_bits : Nat
  next_bits : Nat
  next_mask : Nat

/-- `lm::trie::FindBitPacked` (src/lm/trie_node.cc lines 49-56): search the
records on `[begin_index, end_index)` for `target`, comparing only each
record's leading key field of `key_bits` bits (the C++ proxy passes the mask
`2^key_bits - 1` to `ReadInt57`). -/
def FindBitPacked (base : Mem) (key_bits total_bits begin_index end_index target : Nat) :
    Option Nat :=
  SortedUniformFind (fun i => ReadInt57 base (i * total_bits) key_bits)
    begin_index end_index target

/-- `lm::trie::BitPacked::BaseSize` (src/lm/trie_node.cc lines 59-66).
`total_bits` is a `uint8_t` and the byte count a 64-bit `size_t`, so both
are reduced modulo their widths exactly as the C++ arithmetic does. -/
def BitPacked.BaseSize (entries max_vocab remaining_bits : Nat) : Nat :=
  ((1 + entries) % 2 ^ 64 * ((RequiredBits max_vocab + 31 + remaining_bits) % 256) % 2 ^ 64
      + 7) % 2 ^ 64 / 8 + 8

/-- `lm::trie::BitPacked::BaseInit` (src/lm/trie_node.cc lines 68-78):
derives `word_bits` and `word_mask`, fails (C++ `UTIL_THROW`) when
`word_bits` exceeds 57, fixes `prob_bits = 31` and `total_bits`, and resets
the insert cursor.  `total_bits` is a `uint8_t`, hence the modulus. -/
def BitPacked.BaseInit (b : Mem) (max_vocab remaining_bits : Nat) : Option BitPacked :=
  let word_bits := RequiredBits max_vocab
  if 57 < word_bits then none
  else some ⟨b, word_bits, 2 ^ word_bits - 1, 31, (word_bits + 31 + remaining_bits) % 256, 0⟩

/-- Modelled from the spec: the terminal-order table stores records of
`{word, prob}` only (its `Init`, in lm/trie_node.hh which is not in src/,
is the base init with no remaining bits). -/
def BitPackedLongest.Init (b : Mem) (max_vocab : Nat) : Option BitPacked :=
  BitPacked.BaseInit b max_vocab 0

/-- `lm::trie::BitPackedLongest::Insert` (src/lm/trie_node.cc lines 80-87):
write the word key then the 31-bit non-positive-float probability at the
cursor record, and advance the cursor. -/
def BitPackedLongest.Insert (t : BitPacked) (index prob : Nat) : BitPacked :=
  let at_pointer := t.insert_index * t.total_bits
  let m1 := WriteInt57 t.base at_pointer t.word_bits index
  let m2 := WriteNonPositiveFloat31 m1 (at_pointer + t.word_bits) prob
  { t with base := m2, insert_index := t.insert_index + 1 }

/-- `lm::trie::BitPackedLongest::Find` (src/lm/trie_node.cc lines 89-95):
search the range for `word`; on a miss return `false` leaving the output
parameter `prob` unchanged, on a hit decode the probability. -/
def BitPackedLongest.Find (t : BitPacked) (range : NodeRange) (word prob : Nat) :
    Bool × Nat :=
  match FindBitPacked t.base t.word_bits t.total_bits range.begin_ range.end_ word with
  | none => (false, prob)
  | some at_pointer =>
    (true, ReadNonPositiveFloat31 t.base (at_pointer * t.total_bits + t.word_bits))

/-- `lm::trie::BitPackedMiddle::Size` (src/lm/trie_node.cc lines 97-99). -/
def BitPackedMiddle.Size (entries max_vocab max_ptr : Nat) : Nat :=
  BitPacked.BaseSize entries max_vocab (32 + RequiredBits max_ptr)

/-- `lm::trie::BitPackedMiddle::Init` (src/lm/trie_node.cc lines 101-108):
fixes `backoff_bits = 32`, derives `next_bits` and `next_mask`, fails (C++
`UTIL_THROW`) when `next_bits` exceeds 57, then delegates to `BaseInit`. -/
def BitPackedMiddle.Init (b : Mem) (max_vocab max_next : Nat) : Option BitPackedMiddle :=
  let next_bits := RequiredBits max_next
  if 57 < next_bits then none
  else
    match BitPacked.BaseInit b max_vocab (32 + next_bits) with
    | none => none
    | some bp =>
      some ⟨bp.base, bp.word_bits, bp.word_mask, bp.prob_bits, bp.total_bits,
        bp.insert_index, 32, next_bits, 2 ^ next_bits - 1⟩

/-- `lm::trie::BitPackedMiddle::Insert` (src/lm/trie_node.cc lines 110-124):
append word, probability, backoff, and next pointer at the cursor record and
advance the cursor.  The two C++ `assert`s vanish under `NDEBUG` (the second
even names a non-existent identifier `pointer`, so the file only compiles
with assertions disabled); no range check is performed. -/
def BitPackedMiddle.Insert (t : BitPackedMiddle) (word prob backoff next : Nat) :
    BitPackedMiddle :=
  let p0 := t.insert_index * t.total_bits
  let m1 := WriteInt57 t.base p0 t.word_bits word
  let p1 := p0 + t.word_bits
  let m2 := WriteNonPositiveFloat31 m1 p1 prob
  let p2 := p1 + t.prob_bits
  let m3 := WriteFloat32 m2 p2 backoff
  let p3 := p2 + t.backoff_bits
  let m4 := WriteInt57 m3 p3 t.next_bits next
  { t with base := m4, insert_index := t.insert_index + 1 }

/-- `lm::trie::BitPackedMiddle::Find` (src/lm/trie_node.cc lines 126-140):
search the range for `word`; on a miss return `false` leaving the output
parameters unchanged, on a hit decode probability, backoff, and the child
range from this record's and the next record's `next` fields. -/
def BitPackedMiddle.Find (t : BitPackedMiddle) (range : NodeRange)
    (word prob backoff : Nat) (next_range : NodeRange) :
    Bool × Nat × Nat × NodeRange :=
  match FindBitPacked t.base t.word_bits t.total_bits range.begin_ range.end_ word with
  | none => (false, prob, backoff, next_range)
  | some i =>
    let p1 := i * t.total_bits + t.word_bits
    let prob2 := ReadNonPositiveFloat31 t.base p1
    let p2 := p1 + t.prob_bits
    let backoff2 := ReadFloat32 t.base p2
    let p3 := p2 + t.backoff_bits
    let nbegin := ReadInt57 t.base p3 t.next_bits
    let nend := ReadInt57 t.base (p3 + t.total_bits) t.next_bits
    (true, prob2, backoff2, ⟨nbegin, nend⟩)

/-- `lm::trie::BitPackedMiddle::Finish` (src/lm/trie_node.cc lines 142-146):
write `next_end` into the `next` field of the sentinel slot immediately
after the last inserted record; the cursor is not advanced. -/
def BitPackedMiddle.Finish (t : BitPackedMiddle) (next_end : Nat) : BitPackedMiddle :=
  let last_next_write := (t.insert_index + 1) * t.total_bits - t.next_bits
  { t with base := WriteInt57 t.base last_next_write t.next_bits next_end }

/-- One record of the non-terminal table, as passed to
`BitPackedMiddle::Insert`. -/
structure MiddleEntry where
  word : Nat
  prob : Nat
  backoff : Nat
  next : Nat
deriving DecidableEq

/-- A sequence of `BitPackedLongest::Insert` calls, in order. -/
def insertAllLongest (t : BitPacked) (ps : List (Nat × Nat)) : BitPacked :=
  ps.foldl (fun a p => BitPackedLongest.Insert a p.1 p.2) t

/-- A sequence of `BitPackedMiddle::Insert` calls, in order. -/
def insertAllMiddle (t : BitPackedMiddle) (ps : List MiddleEntry) : BitPackedMiddle :=
  ps.foldl (fun a p => a.Insert p.word p.prob p.backoff p.next) t

/-- Well-formedness of a terminal table as established by its init: the
record width is the key width plus the 31 probability bits. -/
def LongestWF (t : BitPacked) : Prop :=
  t.total_bits = t.word_bits + 31

/-- Well-formedness of a non-terminal table as established by `Init`. -/
def MiddleWF (t : BitPackedMiddle) : Prop :=
  t.prob_bits = 31 ∧ t.backoff_bits = 32 ∧
  t.total_bits = t.word_bits + 31 + 32 + t.next_bits

theorem LongestInsert_reads (t : BitPacked) (word prob : Nat) :
    (∀ o n, o + n ≤ t.insert_index * t.total_bits →
      readBits (BitPackedLongest.Insert t word prob).base o n = readBits t.base o n) ∧
    readBits (BitPackedLongest.Insert t word prob).base
      (t.insert_index * t.total_bits) t.word_bits = word % 2 ^ t.word_bits ∧
    readBits (BitPackedLongest.Insert t word prob).base
      (t.insert_index * t.total_bits + t.word_bits) 31 = prob % 2 ^ 31 := by
  have hbase : (BitPackedLongest.Insert t word prob).base =
      writeBits (writeBits t.base (t.insert_index * t.total_bits) t.word_bits word)
        (t.insert_index * t.total_bits + t.word_bits) 31 prob := rfl
  rw [hbase]
  refine ⟨?_, ?_, ?_⟩
  · intro o n h
    rw [readBits_writeBits_of_disjoint _ _ _ _ _ _ (Or.inl (by omega)),
      readBits_writeBits_of_disjoint _ _ _ _ _ _ (Or.inl (by omega))]
  · rw [readBits_writeBits_of_disjoint _ _ _ _ _ _ (Or.inl (by omega)),
      readBits_writeBits_self]
  · rw [readBits_writeBits_self]

theorem MiddleInsert_reads (t : BitPackedMiddle) (word prob backoff next : Nat)
    (hp : t.prob_bits = 31) (hb : t.backoff_bits = 32) :
    (∀ o n, o + n ≤ t.insert_index * t.total_bits →
      readBits (t.Insert word prob backoff next).base o n = readBits t.base o n) ∧
    readBits (t.Insert word prob backoff next).base
      (t.insert_index * t.total_bits) t.word_bits = word % 2 ^ t.word_bits ∧
    readBits (t.Insert word prob backoff next).base
      (t.insert_index * t.total_bits + t.word_bits) 31 = prob % 2 ^ 31 ∧
    readBits (t.Insert word prob backoff next).base
      (t.insert_index * t.total_bits + t.word_bits + 31) 32 = backoff % 2 ^ 32 ∧
    readBits (t.Insert word prob backoff next).base
      (t.insert_index * t.total_bits + t.word_bits + 63) t.next_bits
      = next % 2 ^ t.next_bits := by
  have hbase : (t.Insert word prob backoff next).base =
      writeBits (writeBits (writeBits (writeBits t.base
        (t.insert_index * t.total_bits) t.word_bits word)
        (t.insert_index * t.total_bits + t.word_bits) 31 prob)
        (t.insert_index * t.total_bits + t.word_bits + t.prob_bits) 32 backoff)
        (t.insert_index * t.total_bits + t.word_bits + t.prob_bits + t.backoff_bits)
        t.next_bits next := rfl
  rw [hbase, hp, hb]
  refine ⟨?_, ?_, ?_, ?_, ?_⟩
  · intro o n h
    rw [readBits_writeBits_of_disjoint _ _ _ _ _ _ (Or.inl (by omega)),
      readBits_writeBits_of_disjoint _ _ _ _ _ _ (Or.inl (by omega)),
      readBits_writeBits_of_disjoint _ _ _ _ _ _ (Or.inl (by omega)),
      readBits_writeBits_of_disjoint _ _ _ _ _ _ (Or.inl (by omega))]
  · rw [readBits_writeBits_of_disjoint _ _ _ _ _ _ (Or.inl (by omega)),
      readBits_writeBits_of_disjoint _ _ _ _ _ _ (Or.inl (by omega)),
      readBits_writeBits_of_disjoint _ _ _ _ _ _ (Or.inl (by omega)),
      readBits_writeBits_self]
  · rw [readBits_writeBits_of_disjoint _ _ _ _ _ _ (Or.inl (by omega)),
      readBits_writeBits_of_disjoint _ _ _ _ _ _ (Or.inl (by omega)),
      readBits_writeBits_self]
  · rw [readBits_writeBits_of_disjoint _ _ _ _ _ _ (Or.inl (by omega)),
      readBits_writeBits_self]
  · rw [readBits_writeBits_self]

theorem insertAllLongest_spec (ps : List (Nat × Nat)) (t : BitPacked) (hwf : LongestWF t) :
    (insertAllLongest t ps).word_bits = t.word_bits ∧
    (insertAllLongest t ps).word_mask = t.word_mask ∧
    (insertAllLongest t ps).prob_bits = t.prob_bits ∧
    (insertAllLongest t ps).total_bits = t.total_bits ∧
    (insertAllLongest t ps).insert_index = t.insert_index + ps.length ∧
    (∀ o n, o + n ≤ t.insert_index * t.total_bits →
      readBits (insertAllLongest t ps).base o n = readBits t.base o n) ∧
    (∀ k, (hk : k < ps.length) →
      readBits (insertAllLongest t ps).base
        ((t.insert_index + k) * t.total_bits) t.word_bits
        = (ps.get ⟨k, hk⟩).1 % 2 ^ t.word_bits ∧
      readBits (insertAllLongest t ps).base
        ((t.insert_index + k) * t.total_bits + t.word_bits) 31
        = (ps.get ⟨k, hk⟩).2 % 2 ^ 31) := by
  induction ps generalizing t with
  | nil =>
    refine ⟨rfl, rfl, rfl, rfl, by simp [insertAllLongest], fun o n _ => rfl, ?_⟩
    intro k hk
    exact absurd hk (by simp)
  | cons p ps ih =>
    have hstep : insertAllLongest t (p :: ps) =
        insertAllLongest (BitPackedLongest.Insert t p.1 p.2) ps := rfl
    set t1 := BitPackedLongest.Insert t p.1 p.2 with ht1
    have hf1 : t1.word_bits = t.word_bits := rfl
    have hf2 : t1.word_mask = t.word_mask := rfl
    have hf3 : t1.prob_bits = t.prob_bits := rfl
    have hf4 : t1.total_bits = t.total_bits := rfl
    have hf5 : t1.insert_index = t.insert_index + 1 := rfl
    have hwf1 : LongestWF t1 := by
      unfold LongestWF at hwf ⊢
      rw [hf1, hf4, hwf]
    obtain ⟨hw, hm, hp, htb, hii, hframe, hrec⟩ := ih t1 hwf1
    obtain ⟨hins_frame, hins_word, hins_prob⟩ := LongestInsert_reads t p.1 p.2
    rw [hstep]
    refine ⟨by rw [hw, hf1], by rw [hm, hf2],
      by rw [hp, hf3], by rw [htb, hf4],
      by rw [hii, hf5, List.length_cons]; omega, ?_, ?_⟩
    · intro o n h
      have h1 : o + n ≤ t1.insert_index * t1.total_bits := by
        rw [hf5, hf4]
        calc o + n ≤ t.insert_index * t.total_bits := h
          _ ≤ (t.insert_index + 1) * t.total_bits := Nat.mul_le_mul_right _ (by omega)
      rw [hframe o n h1]
      exact hins_frame o n h
    · intro k hk
      cases k with
      | zero =>
        have hend : t.insert_index * t.total_bits + t.total_bits
            ≤ t1.insert_index * t1.total_bits := by
          rw [hf5, hf4, Nat.succ_mul]
        have hT : t.total_bits = t.word_bits + 31 := hwf
        constructor
        · rw [Nat.add_zero]
          have : readBits (insertAllLongest t1 ps).base
              (t.insert_index * t.total_bits) t.word_bits
              = readBits t1.base (t.insert_index * t.total_bits) t.word_bits := by
            apply hframe
            omega
          rw [this]
          exact hins_word
        · rw [Nat.add_zero]
          have : readBits (insertAllLongest t1 ps).base
              (t.insert_index * t.total_bits + t.word_bits) 31
              = readBits t1.base (t.insert_index * t.total_bits + t.word_bits) 31 := by
            apply hframe
            omega
          rw [this]
          exact hins_prob
      | succ k2 =>
        have hk2 : k2 < ps.length := by
          simp at hk
          omega
        have hidx : t.insert_index + (k2 + 1) = t1.insert_index + k2 := by
          rw [hf5]
          omega
        have hget : (p :: ps).get ⟨k2 + 1, hk⟩ = ps.get ⟨k2, hk2⟩ := rfl
        obtain ⟨hword, hprob⟩ := hrec k2 hk2
        rw [hf1, hf4] at hword hprob
        constructor
        · rw [hidx, hget]
          exact hword
        · rw [hidx, hget]
          exact hprob

theorem insertAllMiddle_spec (ps : List MiddleEntry) (t : BitPackedMiddle)
    (hwf : MiddleWF t) :
    (insertAllMiddle t ps).word_bits = t.word_bits ∧
    (insertAllMiddle t ps).word_mask = t.word_mask ∧
    (insertAllMiddle t ps).prob_bits = t.prob_bits ∧
    (insertAllMiddle t ps).total_bits = t.total_bits ∧
    (insertAllMiddle t ps).backoff_bits = t.backoff_bits ∧
    (insertAllMiddle t ps).next_bits = t.next_bits ∧
    (insertAllMiddle t ps).next_mask = t.next_mask ∧
    (insertAllMiddle t ps).insert_index = t.insert_index + ps.length ∧
    (∀ o n, o + n ≤ t.insert_index * t.total_bits →
      readBits (insertAllMiddle t ps).base o n = readBits t.base o n) ∧
    (∀ k, (hk : k < ps.length) →
      readBits (insertAllMiddle t ps).base
        ((t.insert_index + k) * t.total_bits) t.word_bits
        = (ps.get ⟨k, hk⟩).word % 2 ^ t.word_bits ∧
      readBits (insertAllMiddle t ps).base
        ((t.insert_index + k) * t.total_bits + t.word_bits) 31
        = (ps.get ⟨k, hk⟩).prob % 2 ^ 31 ∧
      readBits (insertAllMiddle t ps).base
        ((t.insert_index + k) * t.total_bits + t.word_bits + 31) 32
        = (ps.get ⟨k, hk⟩).backoff % 2 ^ 32 ∧
      readBits (insertAllMiddle t ps).base
        ((t.insert_index + k) * t.total_bits + t.word_bits + 63) t.next_bits
        = (ps.get ⟨k, hk⟩).next % 2 ^ t.next_bits) := by
  induction ps generalizing t with
  | nil =>
    refine ⟨rfl, rfl, rfl, rfl, rfl, rfl, rfl, by simp [insertAllMiddle],
      fun o n _ => rfl, ?_⟩
    intro k hk
    exact absurd hk (by simp)
  | cons p ps ih =>
    have hstep : insertAllMiddle t (p :: ps) =
        insertAllMiddle (t.Insert p.word p.prob p.backoff p.next) ps := rfl
    set t1 := t.Insert p.word p.prob p.backoff p.next with ht1
    have hf1 : t1.word_bits = t.word_bits := rfl
    have hf2 : t1.word_mask = t.word_mask := rfl
    have hf3 : t1.prob_bits = t.prob_bits := rfl
    have hf4 : t1.total_bits = t.total_bits := rfl
    have hf5 : t1.backoff_bits = t.backoff_bits := rfl
    have hf6 : t1.next_bits = t.next_bits := rfl
    have hf7 : t1.next_mask = t.next_mask := rfl
    have hf8 : t1.insert_index = t.insert_index + 1 := rfl
    have hwf1 : MiddleWF t1 := by
      obtain ⟨h1, h2, h3⟩ := hwf
      exact ⟨by rw [hf3, h1], by rw [hf5, h2], by rw [hf4, hf1, hf6, h3]⟩
    obtain ⟨hw, hm, hp, htb, hbo, hnb, hnm, hii, hframe, hrec⟩ := ih t1 hwf1
    obtain ⟨hins_frame, hins_word, hins_prob, hins_backoff, hins_next⟩ :=
      MiddleInsert_reads t p.word p.prob p.backoff p.next hwf.1 hwf.2.1
    rw [hstep]
    refine ⟨by rw [hw, hf1], by rw [hm, hf2], by rw [hp, hf3], by rw [htb, hf4],
      by rw [hbo, hf5], by rw [hnb, hf6], by rw [hnm, hf7],
      by rw [hii, hf8, List.length_cons]; omega, ?_, ?_⟩
    · intro o n h
      have h1 : o + n ≤ t1.insert_index * t1.total_bits := by
        rw [hf8, hf4]
        calc o + n ≤ t.insert_index * t.total_bits := h
          _ ≤ (t.insert_index + 1) * t.total_bits := Nat.mul_le_mul_right _ (by omega)
      rw [hframe o n h1]
      exact hins_frame o n h
    · intro k hk
      cases k with
      | zero =>
        have hend : t.insert_index * t.total_bits + t.total_bits
            ≤ t1.insert_index * t1.total_bits := by
          rw [hf8, hf4, Nat.succ_mul]
        have hT : t.total_bits = t.word_bits + 31 + 32 + t.next_bits := hwf.2.2
        refine ⟨?_, ?_, ?_, ?_⟩
        · simp only [Nat.add_zero]
          have heq : readBits (insertAllMiddle t1 ps).base
              (t.insert_index * t.total_bits) t.word_bits
              = readBits t1.base (t.insert_index * t.total_bits) t.word_bits := by
            apply hframe
            omega
          rw [heq]
          exact hins_word
        · simp only [Nat.add_zero]
          have heq : readBits (insertAllMiddle t1 ps).base
              (t.insert_index * t.total_bits + t.word_bits) 31
              = readBits t1.base (t.insert_index * t.total_bits + t.word_bits) 31 := by
            apply hframe
            omega
          rw [heq]
          exact hins_prob
        · simp only [Nat.add_zero]
          have heq : readBits (insertAllMiddle t1 ps).base
              (t.insert_index * t.total_bits + t.word_bits + 31) 32
              = readBits t1.base (t.insert_index * t.total_bits + t.word_bits + 31) 32 := by
            apply hframe
            omega
          rw [heq]
          exact hins_backoff
        · simp only [Nat.add_zero]
          have heq : readBits (insertAllMiddle t1 ps).base
              (t.insert_index * t.total_bits + t.word_bits + 63) t.next_bits
              = readBits t1.base
                (t.insert_index * t.total_bits + t.word_bits + 63) t.next_bits := by
            apply hframe
            omega
          rw [heq]
          exact hins_next
      | succ k2 =>
        have hk2 : k2 < ps.length := by
          simp at hk
          omega
        have hidx : t.insert_index + (k2 + 1) = t1.insert_index + k2 := by
          rw [hf8]
          omega
        have hget : (p :: ps).get ⟨k2 + 1, hk⟩ = ps.get ⟨k2, hk2⟩ := rfl
        obtain ⟨hword, hprob, hbackoff, hnext⟩ := hrec k2 hk2
        rw [hf1, hf4] at hword hprob hbackoff hnext
        rw [hf6] at hnext
        exact ⟨by rw [hidx, hget]; exact hword, by rw [hidx, hget]; exact hprob,
          by rw [hidx, hget]; exact hbackoff, by rw [hidx, hget]; exact hnext⟩

theorem signbit_restore (p : Nat) (h1 : 2 ^ 31 ≤ p) (h2 : p < 2 ^ 32) :
    2 ^ 31 + p % 2 ^ 31 = p := by
  have hsub : p % 2 ^ 31 = p - 2 ^ 31 := by
    rw [Nat.mod_eq_sub_mod h1, Nat.mod_eq_of_lt (by omega)]
  omega

theorem LongestInit_spec (b : Mem) (max_vocab : Nat) (t : BitPacked)
    (h : BitPackedLongest.Init b max_vocab = some t) :
    t.base = b ∧ t.word_bits = RequiredBits max_vocab ∧
    t.word_mask = 2 ^ RequiredBits max_vocab - 1 ∧ t.prob_bits = 31 ∧
    t.total_bits = RequiredBits max_vocab + 31 ∧ t.insert_index = 0 ∧
    LongestWF t := by
  unfold BitPackedLongest.Init BitPacked.BaseInit at h
  by_cases hgt : 57 < RequiredBits max_vocab
  · rw [if_pos hgt] at h
    exact absurd h (by simp)
  · rw [if_neg hgt] at h
    have hmod : (RequiredBits max_vocab + 31 + 0) % 256 = RequiredBits max_vocab + 31 := by
      apply Nat.mod_eq_of_lt
      omega
    rw [Option.some_inj] at h
    subst h
    refine ⟨rfl, rfl, rfl, rfl, ?_, rfl, ?_⟩
    · exact hmod
    · unfold LongestWF
      exact hmod

theorem MiddleInit_spec (b : Mem) (max_vocab max_next : Nat) (t : BitPackedMiddle)
    (h : BitPackedMiddle.Init b max_vocab max_next = some t) :
    t.base = b ∧ t.word_bits = RequiredBits max_vocab ∧
    t.word_mask = 2 ^ RequiredBits max_vocab - 1 ∧ t.prob_bits = 31 ∧
    t.total_bits = RequiredBits max_vocab + 31 + 32 + RequiredBits max_next ∧
    t.insert_index = 0 ∧ t.backoff_bits = 32 ∧
    t.next_bits = RequiredBits max_next ∧
    t.next_mask = 2 ^ RequiredBits max_next - 1 ∧ MiddleWF t := by
  unfold BitPackedMiddle.Init BitPacked.BaseInit at h
  by_cases hn : 57 < RequiredBits max_next
  · rw [if_pos hn] at h
    exact absurd h (by simp)
  · rw [if_neg hn] at h
    by_cases hw : 57 < RequiredBits max_vocab
    · rw [if_pos hw] at h
      exact absurd h (by simp)
    · rw [if_neg hw] at h
      simp only [Option.some_inj] at h
      subst h
      have hmod : (RequiredBits max_vocab + 31 + (32 + RequiredBits max_next)) % 256
          = RequiredBits max_vocab + 31 + 32 + RequiredBits max_next := by
        rw [Nat.mod_eq_of_lt (by omega)]
        omega
      refine ⟨rfl, rfl, rfl, rfl, hmod, rfl, rfl, rfl, rfl, ?_⟩
      unfold MiddleWF
      exact ⟨rfl, rfl, hmod⟩

theorem Finish_reads (t : BitPackedMiddle) (hwf : MiddleWF t) (next_end : Nat) :
    (t.Finish next_end).word_bits = t.word_bits ∧
    (t.Finish next_end).word_mask = t.word_mask ∧
    (t.Finish next_end).prob_bits = t.prob_bits ∧
    (t.Finish next_end).total_bits = t.total_bits ∧
    (t.Finish next_end).backoff_bits = t.backoff_bits ∧
    (t.Finish next_end).next_bits = t.next_bits ∧
    (t.Finish next_end).next_mask = t.next_mask ∧
    (t.Finish next_end).insert_index = t.insert_index ∧
    (∀ o n, o + n ≤ t.insert_index * t.total_bits + t.word_bits + 63 →
      readBits (t.Finish next_end).base o n = readBits t.base o n) ∧
    readBits (t.Finish next_end).base
      (t.insert_index * t.total_bits + t.word_bits + 63) t.next_bits
      = next_end % 2 ^ t.next_bits := by
  have hoff : (t.insert_index + 1) * t.total_bits - t.next_bits
      = t.insert_index * t.total_bits + t.word_bits + 63 := by
    rw [Nat.succ_mul]
    have hT : t.total_bits = t.word_bits + 31 + 32 + t.next_bits := hwf.2.2
    omega
  have hbase : (t.Finish next_end).base =
      writeBits t.base ((t.insert_index + 1) * t.total_bits - t.next_bits)
        t.next_bits next_end := rfl
  refine ⟨rfl, rfl, rfl, rfl, rfl, rfl, rfl, rfl, ?_, ?_⟩
  · intro o n h
    rw [hbase, hoff]
    exact readBits_writeBits_of_disjoint _ _ _ _ _ _ (Or.inl h)
  · rw [hbase, hoff]
    exact readBits_writeBits_self _ _ _ _

theorem longestBuilt_key (t0 : BitPacked) (ps : List (Nat × Nat))
    (hii : t0.insert_index = 0) (hwf : LongestWF t0)
    (hmask : t0.word_mask = 2 ^ t0.word_bits - 1)
    (hwords : ∀ p ∈ ps, p.1 ≤ t0.word_mask)
    (i : Nat) (hi : i < ps.length) :
    readBits (insertAllLongest t0 ps).base (i * t0.total_bits) t0.word_bits
      = (ps.get ⟨i, hi⟩).1 := by
  obtain ⟨_, _, _, _, _, _, hrec⟩ := insertAllLongest_spec ps t0 hwf
  obtain ⟨hword, _⟩ := hrec i hi
  rw [hii, Nat.zero_add] at hword
  rw [hword]
  apply Nat.mod_eq_of_lt
  have hin := hwords _ (List.get_mem ps i hi)
  rw [hmask] at hin
  have hpow : 1 ≤ 2 ^ t0.word_bits := Nat.one_le_two_pow
  omega

theorem middleBuilt_key (t0 : BitPackedMiddle) (ps : List MiddleEntry)
    (hii : t0.insert_index = 0) (hwf : MiddleWF t0)
    (hmask : t0.word_mask = 2 ^ t0.word_bits - 1)
    (hwords : ∀ p ∈ ps, p.word ≤ t0.word_mask)
    (i : Nat) (hi : i < ps.length) :
    readBits (insertAllMiddle t0 ps).base (i * t0.total_bits) t0.word_bits
      = (ps.get ⟨i, hi⟩).word := by
  obtain ⟨_, _, _, _, _, _, _, _, _, hrec⟩ := insertAllMiddle_spec ps t0 hwf
  obtain ⟨hword, _, _, _⟩ := hrec i hi
  rw [hii, Nat.zero_add] at hword
  rw [hword]
  apply Nat.mod_eq_of_lt
  have hin := hwords _ (List.get_mem ps i hi)
  rw [hmask] at hin
  have hpow : 1 ≤ 2 ^ t0.word_bits := Nat.one_le_two_pow
  omega

theorem longestBuilt_search (t0 : BitPacked) (ps : List (Nat × Nat))
    (hii : t0.insert_index = 0) (hwf : LongestWF t0)
    (hmask : t0.word_mask = 2 ^ t0.word_bits - 1)
    (hwords : ∀ p ∈ ps, p.1 ≤ t0.word_mask)
    (hasc : ps.Pairwise (fun a b => a.1 < b.1))
    (k lo hi : Nat) (hk : k < ps.length) (hlo : lo ≤ k) (hhi : k < hi)
    (hhiN : hi ≤ ps.length) :
    FindBitPacked (insertAllLongest t0 ps).base (insertAllLongest t0 ps).word_bits
      (insertAllLongest t0 ps).total_bits lo hi (ps.get ⟨k, hk⟩).1 = some k := by
  obtain ⟨hw, _, _, htb, _, _, _⟩ := insertAllLongest_spec ps t0 hwf
  unfold FindBitPacked
  simp only [hw, htb]
  apply SortedUniformFind_eq_some _ _ _ _ _ hlo hhi
  · exact longestBuilt_key t0 ps hii hwf hmask hwords k hk
  · intro j hj1 hj2
    have hjN : j < ps.length := by omega
    have hkey : ReadInt57 (insertAllLongest t0 ps).base (j * t0.total_bits) t0.word_bits
        = (ps.get ⟨j, hjN⟩).1 := longestBuilt_key t0 ps hii hwf hmask hwords j hjN
    rw [hkey]
    have hlt := List.pairwise_iff_get.mp hasc ⟨j, hjN⟩ ⟨k, hk⟩ hj2
    omega

theorem middleBuilt_search (t0 : BitPackedMiddle) (ps : List MiddleEntry)
    (hii : t0.insert_index = 0) (hwf : MiddleWF t0)
    (hmask : t0.word_mask = 2 ^ t0.word_bits - 1)
    (hwords : ∀ p ∈ ps, p.word ≤ t0.word_mask)
    (hasc : ps.Pairwise (fun a b => a.word < b.word))
    (k lo hi : Nat) (hk : k < ps.length) (hlo : lo ≤ k) (hhi : k < hi)
    (hhiN : hi ≤ ps.length) :
    FindBitPacked (insertAllMiddle t0 ps).base (insertAllMiddle t0 ps).word_bits
      (insertAllMiddle t0 ps).total_bits lo hi (ps.get ⟨k, hk⟩).word = some k := by
  obtain ⟨hw, _, _, htb, _, _, _, _, _, _⟩ := insertAllMiddle_spec ps t0 hwf
  unfold FindBitPacked
  simp only [hw, htb]
  apply SortedUniformFind_eq_some _ _ _ _ _ hlo hhi
  · exact middleBuilt_key t0 ps hii hwf hmask hwords k hk
  · intro j hj1 hj2
    have hjN : j < ps.length := by omega
    have hkey : ReadInt57 (insertAllMiddle t0 ps).base (j * t0.total_bits) t0.word_bits
        = (ps.get ⟨j, hjN⟩).word := middleBuilt_key t0 ps hii hwf hmask hwords j hjN
    rw [hkey]
    have hlt := List.pairwise_iff_get.mp hasc ⟨j, hjN⟩ ⟨k, hk⟩ hj2
    omega

/-- C1: Round-trip.  For any sequence of `Insert` calls with strictly
ascending word keys (each word within `word_mask`, each probability a
non-positive float pattern, and for the non-terminal table each `next`
within `next_mask`), a later `Find` on each inserted key, within a range
containing it (drawn from the table's real extent), returns `true` together
with exactly the probability (terminal table), and exactly the probability,
backoff, and `next` (as the returned child range's `begin_`) that were
passed to `Insert` (non-terminal table). -/
theorem claim_C1_roundtrip :
    (∀ (b : Mem) (max_vocab : Nat) (t0 : BitPacked) (ps : List (Nat × Nat)),
      BitPackedLongest.Init b max_vocab = some t0 →
      ps.Pairwise (fun x y => x.1 < y.1) →
      (∀ p ∈ ps, p.1 ≤ t0.word_mask) →
      (∀ p ∈ ps, 2 ^ 31 ≤ p.2 ∧ p.2 < 2 ^ 32) →
      ∀ (k : Nat) (hk : k < ps.length) (lo hi prob0 : Nat),
        lo ≤ k → k < hi → hi ≤ ps.length →
        BitPackedLongest.Find (insertAllLongest t0 ps) ⟨lo, hi⟩ (ps.get ⟨k, hk⟩).1 prob0
          = (true, (ps.get ⟨k, hk⟩).2)) ∧
    (∀ (b : Mem) (max_vocab max_next : Nat) (t0 : BitPackedMiddle)
        (ps : List MiddleEntry),
      BitPackedMiddle.Init b max_vocab max_next = some t0 →
      ps.Pairwise (fun x y => x.word < y.word) →
      (∀ p ∈ ps, p.word ≤ t0.word_mask) →
      (∀ p ∈ ps, 2 ^ 31 ≤ p.prob ∧ p.prob < 2 ^ 32) →
      (∀ p ∈ ps, p.backoff < 2 ^ 32) →
      (∀ p ∈ ps, p.next ≤ t0.next_mask) →
      ∀ (k : Nat) (hk : k < ps.length) (lo hi prob0 backoff0 : Nat) (nr0 : NodeRange),
        lo ≤ k → k < hi → hi ≤ ps.length →
        ((insertAllMiddle t0 ps).Find ⟨lo, hi⟩ (ps.get ⟨k, hk⟩).word
            prob0 backoff0 nr0).1 = true ∧
        ((insertAllMiddle t0 ps).Find ⟨lo, hi⟩ (ps.get ⟨k, hk⟩).word
            prob0 backoff0 nr0).2.1 = (ps.get ⟨k, hk⟩).prob ∧
        ((insertAllMiddle t0 ps).Find ⟨lo, hi⟩ (ps.get ⟨k, hk⟩).word
            prob0 backoff0 nr0).2.2.1 = (ps.get ⟨k, hk⟩).backoff ∧
        ((insertAllMiddle t0 ps).Find ⟨lo, hi⟩ (ps.get ⟨k, hk⟩).word
            prob0 backoff0 nr0).2.2.2.begin_ = (ps.get ⟨k, hk⟩).next) := by
  constructor
  · intro b max_vocab t0 ps hinit hasc hwords hprobs k hk lo hi prob0 hlo hhi hhiN
    obtain ⟨_, hwb, hmask, _, _, hii, hwf⟩ := LongestInit_spec b max_vocab t0 hinit
    have hmask2 : t0.word_mask = 2 ^ t0.word_bits - 1 := by
      rw [hmask, hwb]
    have hsearch := longestBuilt_search t0 ps hii hwf hmask2 hwords hasc
      k lo hi hk hlo hhi hhiN
    obtain ⟨hw, _, _, htb, _, _, hrec⟩ := insertAllLongest_spec ps t0 hwf
    obtain ⟨_, hprobrec⟩ := hrec k hk
    rw [hii, Nat.zero_add] at hprobrec
    unfold BitPackedLongest.Find
    rw [hsearch]
    show (true, ReadNonPositiveFloat31 (insertAllLongest t0 ps).base
      (k * (insertAllLongest t0 ps).total_bits + (insertAllLongest t0 ps).word_bits))
      = (true, (ps.get ⟨k, hk⟩).2)
    unfold ReadNonPositiveFloat31
    rw [htb, hw, hprobrec]
    obtain ⟨hge, hlt⟩ := hprobs _ (List.get_mem ps k hk)
    rw [signbit_restore _ hge hlt]
  · intro b max_vocab max_next t0 ps hinit hasc hwords hprobs hbackoffs hnexts
      k hk lo hi prob0 backoff0 nr0 hlo hhi hhiN
    obtain ⟨_, hwb, hmaskeq, hpb, _, hii, _, hnbits, hnmaskeq, hwf⟩ :=
      MiddleInit_spec b max_vocab max_next t0 hinit
    have hmask2 : t0.word_mask = 2 ^ t0.word_bits - 1 := by
      rw [hmaskeq, hwb]
    have hnmask2 : t0.next_mask = 2 ^ t0.next_bits - 1 := by
      rw [hnmaskeq, hnbits]
    have hsearch := middleBuilt_search t0 ps hii hwf hmask2 hwords hasc
      k lo hi hk hlo hhi hhiN
    obtain ⟨hw, _, hp, htb, hbo, hnb, _, _, _, hrec⟩ := insertAllMiddle_spec ps t0 hwf
    obtain ⟨_, hprobrec, hbackoffrec, hnextrec⟩ := hrec k hk
    rw [hii, Nat.zero_add] at hprobrec hbackoffrec hnextrec
    unfold BitPackedMiddle.Find
    rw [hsearch]
    refine ⟨rfl, ?_, ?_, ?_⟩
    · show ReadNonPositiveFloat31 (insertAllMiddle t0 ps).base
        (k * (insertAllMiddle t0 ps).total_bits + (insertAllMiddle t0 ps).word_bits)
        = (ps.get ⟨k, hk⟩).prob
      unfold ReadNonPositiveFloat31
      rw [htb, hw, hprobrec]
      obtain ⟨hge, hlt⟩ := hprobs _ (List.get_mem ps k hk)
      rw [signbit_restore _ hge hlt]
    · show ReadFloat32 (insertAllMiddle t0 ps).base
        (k * (insertAllMiddle t0 ps).total_bits + (insertAllMiddle t0 ps).word_bits
          + (insertAllMiddle t0 ps).prob_bits)
        = (ps.get ⟨k, hk⟩).backoff
      unfold ReadFloat32
      rw [htb, hw, hp, hwf.1, hbackoffrec]
      exact Nat.mod_eq_of_lt (hbackoffs _ (List.get_mem ps k hk))
    · show ReadInt57 (insertAllMiddle t0 ps).base
        (k * (insertAllMiddle t0 ps).total_bits + (insertAllMiddle t0 ps).word_bits
          + (insertAllMiddle t0 ps).prob_bits + (insertAllMiddle t0 ps).backoff_bits)
        (insertAllMiddle t0 ps).next_bits
        = (ps.get ⟨k, hk⟩).next
      unfold ReadInt57
      rw [htb, hw, hp, hwf.1, hbo, hwf.2.1, hnb]
      have harith : k * t0.total_bits + t0.word_bits + 31 + 32
          = k * t0.total_bits + t0.word_bits + 63 := by omega
      rw [harith, hnextrec]
      apply Nat.mod_eq_of_lt
      have hin := hnexts _ (List.get_mem ps k hk)
      rw [hnmask2] at hin
      have hpow : 1 ≤ 2 ^ t0.next_bits := Nat.one_le_two_pow
      omega

/-- C2: Non-terminal `Find` child-range derivation.  On a table built by
`Insert` calls followed by exactly one `Finish next_end`, a successful
`Find` at record index `k` returns the child range
`(record k next, record (k+1) next)`, where the slot after the last
inserted record holds `next_end`; in particular `Find` on the last inserted
word returns a child range whose `end_` equals `next_end`. -/
theorem claim_C2_find_child_range
    (b : Mem) (max_vocab max_next : Nat) (t0 : BitPackedMiddle)
    (ps : List MiddleEntry) (next_end : Nat)
    (hinit : BitPackedMiddle.Init b max_vocab max_next = some t0)
    (hasc : ps.Pairwise (fun x y => x.word < y.word))
    (hwords : ∀ p ∈ ps, p.word ≤ t0.word_mask)
    (hprobs : ∀ p ∈ ps, 2 ^ 31 ≤ p.prob ∧ p.prob < 2 ^ 32)
    (hbackoffs : ∀ p ∈ ps, p.backoff < 2 ^ 32)
    (hnexts : ∀ p ∈ ps, p.next ≤ t0.next_mask)
    (hend : next_end ≤ t0.next_mask)
    (k : Nat) (hk : k < ps.length) (lo hi prob0 backoff0 : Nat) (nr0 : NodeRange)
    (hlo : lo ≤ k) (hhi : k < hi) (hhiN : hi ≤ ps.length) :
    ((insertAllMiddle t0 ps).Finish next_end).Find ⟨lo, hi⟩ (ps.get ⟨k, hk⟩).word
      prob0 backoff0 nr0
      = (true, (ps.get ⟨k, hk⟩).prob, (ps.get ⟨k, hk⟩).backoff,
          ⟨(ps.get ⟨k, hk⟩).next, (ps.map MiddleEntry.next).getD (k + 1) next_end⟩) := by
  obtain ⟨_, hwb, hmaskeq, hpb, _, hii, _, hnbits, hnmaskeq, hwf⟩ :=
    MiddleInit_spec b max_vocab max_next t0 hinit
  have hmask2 : t0.word_mask = 2 ^ t0.word_bits - 1 := by
    rw [hmaskeq, hwb]
  have hnmask2 : t0.next_mask = 2 ^ t0.next_bits - 1 := by
    rw [hnmaskeq, hnbits]
  obtain ⟨hw, hm, hp, htb, hbo, hnb, hnm, hiiN, hframeN, hrec⟩ :=
    insertAllMiddle_spec ps t0 hwf
  set tN := insertAllMiddle t0 ps with htN
  have hiiN2 : tN.insert_index = ps.length := by
    rw [hiiN, hii, Nat.zero_add]
  have hwfN : MiddleWF tN := by
    unfold MiddleWF at hwf ⊢
    rw [hp, hbo, htb, hw, hnb]
    exact hwf
  obtain ⟨hFw, hFm, hFp, hFtb, hFbo, hFnb, hFnm, hFii, hFframe, hFsent⟩ :=
    Finish_reads tN hwfN next_end
  have hT : t0.total_bits = t0.word_bits + 31 + 32 + t0.next_bits := hwf.2.2
  have hN1 : 1 ≤ ps.length := by omega
  -- reads on the finished table within the inserted region agree with tN
  have hframeF : ∀ o n, o + n ≤ ps.length * t0.total_bits + t0.word_bits + 63 →
      readBits (tN.Finish next_end).base o n = readBits tN.base o n := by
    intro o n h
    apply hFframe
    rw [hiiN2, htb, hw]
    exact h
  -- keys on the finished table
  have hkeyF : ∀ j (hj : j < ps.length),
      readBits (tN.Finish next_end).base (j * t0.total_bits) t0.word_bits
        = (ps.get ⟨j, hj⟩).word := by
    intro j hj
    rw [hframeF _ _ (by
      have : (j + 1) * t0.total_bits ≤ ps.length * t0.total_bits :=
        Nat.mul_le_mul_right _ (by omega)
      rw [Nat.succ_mul] at this
      omega)]
    exact middleBuilt_key t0 ps hii hwf hmask2 hwords j hj
  -- the search succeeds at index k
  have hsearch : FindBitPacked (tN.Finish next_end).base (tN.Finish next_end).word_bits
      (tN.Finish next_end).total_bits lo hi (ps.get ⟨k, hk⟩).word = some k := by
    unfold FindBitPacked
    simp only [hFw, hFtb, hw, htb]
    apply SortedUniformFind_eq_some _ _ _ _ _ hlo hhi
    · exact hkeyF k hk
    · intro j hj1 hj2
      have hjN : j < ps.length := by omega
      have hkey := hkeyF j hjN
      show ReadInt57 (tN.Finish next_end).base (j * t0.total_bits) t0.word_bits
        ≠ (ps.get ⟨k, hk⟩).word
      unfold ReadInt57
      rw [hkey]
      have hlt := List.pairwise_iff_get.mp hasc ⟨j, hjN⟩ ⟨k, hk⟩ hj2
      omega
  obtain ⟨_, hprobrec, hbackoffrec, hnextrec⟩ := hrec k hk
  rw [hii, Nat.zero_add] at hprobrec hbackoffrec hnextrec
  unfold BitPackedMiddle.Find
  rw [hsearch]
  have hfields : (tN.Finish next_end).word_bits = t0.word_bits ∧
      (tN.Finish next_end).total_bits = t0.total_bits ∧
      (tN.Finish next_end).prob_bits = 31 ∧
      (tN.Finish next_end).backoff_bits = 32 ∧
      (tN.Finish next_end).next_bits = t0.next_bits := by
    refine ⟨by rw [hFw, hw], by rw [hFtb, htb], ?_, ?_, by rw [hFnb, hnb]⟩
    · rw [hFp, hp, hwf.1]
    · rw [hFbo, hbo, hwf.2.1]
  obtain ⟨hgw, hgtb, hgp, hgbo, hgnb⟩ := hfields
  show (true,
      ReadNonPositiveFloat31 (tN.Finish next_end).base
        (k * (tN.Finish next_end).total_bits + (tN.Finish next_end).word_bits),
      ReadFloat32 (tN.Finish next_end).base
        (k * (tN.Finish next_end).total_bits + (tN.Finish next_end).word_bits
          + (tN.Finish next_end).prob_bits),
      (⟨ReadInt57 (tN.Finish next_end).base
          (k * (tN.Finish next_end).total_bits + (tN.Finish next_end).word_bits
            + (tN.Finish next_end).prob_bits + (tN.Finish next_end).backoff_bits)
          (tN.Finish next_end).next_bits,
        ReadInt57 (tN.Finish next_end).base
          (k * (tN.Finish next_end).total_bits + (tN.Finish next_end).word_bits
            + (tN.Finish next_end).prob_bits + (tN.Finish next_end).backoff_bits
            + (tN.Finish next_end).total_bits)
          (tN.Finish next_end).next_bits⟩ : NodeRange))
    = (true, (ps.get ⟨k, hk⟩).prob, (ps.get ⟨k, hk⟩).backoff,
        (⟨(ps.get ⟨k, hk⟩).next,
          (ps.map MiddleEntry.next).getD (k + 1) next_end⟩ : NodeRange))
  have hspan : ∀ c : Nat, c ≤ ps.length →
      c * t0.total_bits ≤ ps.length * t0.total_bits :=
    fun c hc => Nat.mul_le_mul_right _ hc
  have e1 : ReadNonPositiveFloat31 (tN.Finish next_end).base
      (k * (tN.Finish next_end).total_bits + (tN.Finish next_end).word_bits)
      = (ps.get ⟨k, hk⟩).prob := by
    unfold ReadNonPositiveFloat31
    rw [hgtb, hgw]
    rw [hframeF _ _ (by
      have h1 := hspan (k + 1) (by omega)
      rw [Nat.succ_mul] at h1
      omega)]
    rw [hprobrec]
    obtain ⟨hge, hlt⟩ := hprobs _ (List.get_mem ps k hk)
    rw [signbit_restore _ hge hlt]
  have e2 : ReadFloat32 (tN.Finish next_end).base
      (k * (tN.Finish next_end).total_bits + (tN.Finish next_end).word_bits
        + (tN.Finish next_end).prob_bits)
      = (ps.get ⟨k, hk⟩).backoff := by
    unfold ReadFloat32
    rw [hgtb, hgw, hgp]
    rw [hframeF _ _ (by
      have h1 := hspan (k + 1) (by omega)
      rw [Nat.succ_mul] at h1
      omega)]
    rw [hbackoffrec]
    exact Nat.mod_eq_of_lt (hbackoffs _ (List.get_mem ps k hk))
  have e3 : ReadInt57 (tN.Finish next_end).base
      (k * (tN.Finish next_end).total_bits + (tN.Finish next_end).word_bits
        + (tN.Finish next_end).prob_bits + (tN.Finish next_end).backoff_bits)
      (tN.Finish next_end).next_bits
      = (ps.get ⟨k, hk⟩).next := by
    unfold ReadInt57
    rw [hgtb, hgw, hgp, hgbo, hgnb]
    have harith : k * t0.total_bits + t0.word_bits + 31 + 32
        = k * t0.total_bits + t0.word_bits + 63 := by omega
    rw [harith]
    rw [hframeF _ _ (by
      have h1 := hspan (k + 1) (by omega)
      rw [Nat.succ_mul] at h1
      omega)]
    rw [hnextrec]
    apply Nat.mod_eq_of_lt
    have hin := hnexts _ (List.get_mem ps k hk)
    rw [hnmask2] at hin
    have hpow : 1 ≤ 2 ^ t0.next_bits := Nat.one_le_two_pow
    omega
  have e4 : ReadInt57 (tN.Finish next_end).base
      (k * (tN.Finish next_end).total_bits + (tN.Finish next_end).word_bits
        + (tN.Finish next_end).prob_bits + (tN.Finish next_end).backoff_bits
        + (tN.Finish next_end).total_bits)
      (tN.Finish next_end).next_bits
      = (ps.map MiddleEntry.next).getD (k + 1) next_end := by
    unfold ReadInt57
    rw [hgtb, hgw, hgp, hgbo, hgnb]
    have hoff : k * t0.total_bits + t0.word_bits + 31 + 32 + t0.total_bits
        = (k + 1) * t0.total_bits + t0.word_bits + 63 := by
      rw [Nat.succ_mul]
      omega
    rw [hoff]
    by_cases hk1 : k + 1 < ps.length
    · obtain ⟨_, _, _, hnextrec2⟩ := hrec (k + 1) hk1
      rw [hii, Nat.zero_add] at hnextrec2
      rw [hframeF _ _ (by
        have h1 := hspan (k + 2) (by omega)
        have h2 : (k + 2) * t0.total_bits
            = (k + 1) * t0.total_bits + t0.total_bits := by
          rw [Nat.succ_mul]
        rw [h2] at h1
        omega)]
      rw [hnextrec2]
      have hgetD : (ps.map MiddleEntry.next).getD (k + 1) next_end
          = (ps.get ⟨k + 1, hk1⟩).next := by
        rw [List.getD_eq_get _ _ (by simpa using hk1)]
        simp [List.get_map]
      rw [hgetD]
      apply Nat.mod_eq_of_lt
      have hin := hnexts _ (List.get_mem ps (k + 1) hk1)
      rw [hnmask2] at hin
      have hpow : 1 ≤ 2 ^ t0.next_bits := Nat.one_le_two_pow
      omega
    · have hkN : k + 1 = ps.length := by omega
      have hsent2 : readBits (tN.Finish next_end).base
          ((k + 1) * t0.total_bits + t0.word_bits + 63) t0.next_bits
          = next_end % 2 ^ t0.next_bits := by
        have hx := hFsent
        rw [hiiN2, htb, hw, hnb] at hx
        rw [hkN]
        exact hx
      rw [hsent2]
      rw [List.getD_eq_default _ _ (by simpa using Nat.le_of_eq hkN.symm)]
      apply Nat.mod_eq_of_lt
      rw [hnmask2] at hend
      have hpow : 1 ≤ 2 ^ t0.next_bits := Nat.one_le_two_pow
      omega
  rw [e1, e2, e3, e4]

/-- C4: `Find` completeness of "not found".  On a table whose records are
strictly ascending by word, `Find` reports "not found" whenever the sought
word was never inserted at an index inside the queried range; and for every
word, a range with `begin_ = end_` always yields "not found" (also at the
level of the raw search `FindBitPacked`). -/
theorem claim_C4_find_not_found :
    (∀ (b : Mem) (max_vocab : Nat) (t0 : BitPacked) (ps : List (Nat × Nat)),
      BitPackedLongest.Init b max_vocab = some t0 →
      ps.Pairwise (fun x y => x.1 < y.1) →
      (∀ p ∈ ps, p.1 ≤ t0.word_mask) →
      ∀ (lo hi word prob0 : Nat), hi ≤ ps.length →
        (∀ j (hj : j < ps.length), lo ≤ j → j < hi → (ps.get ⟨j, hj⟩).1 ≠ word) →
        BitPackedLongest.Find (insertAllLongest t0 ps) ⟨lo, hi⟩ word prob0
          = (false, prob0)) ∧
    (∀ (t : BitPacked) (lo word prob0 : Nat),
      BitPackedLongest.Find t ⟨lo, lo⟩ word prob0 = (false, prob0)) ∧
    (∀ (base : Mem) (key_bits total_bits lo target : Nat),
      FindBitPacked base key_bits total_bits lo lo target = none) := by
  have hempty : ∀ (base : Mem) (key_bits total_bits lo target : Nat),
      FindBitPacked base key_bits total_bits lo lo target = none := by
    intro base key_bits total_bits lo target
    unfold FindBitPacked SortedUniformFind
    rw [Nat.sub_self]
    rfl
  refine ⟨?_, ?_, hempty⟩
  · intro b max_vocab t0 ps hinit hasc hwords lo hi word prob0 hhiN hmiss
    obtain ⟨_, hwb, hmask, _, _, hii, hwf⟩ := LongestInit_spec b max_vocab t0 hinit
    have hmask2 : t0.word_mask = 2 ^ t0.word_bits - 1 := by
      rw [hmask, hwb]
    obtain ⟨hw, _, _, htb, _, _, _⟩ := insertAllLongest_spec ps t0 hwf
    have hsearch : FindBitPacked (insertAllLongest t0 ps).base
        (insertAllLongest t0 ps).word_bits (insertAllLongest t0 ps).total_bits
        lo hi word = none := by
      unfold FindBitPacked
      simp only [hw, htb]
      apply SortedUniformFind_eq_none
      intro j hj1 hj2
      have hjN : j < ps.length := by omega
      show ReadInt57 (insertAllLongest t0 ps).base (j * t0.total_bits) t0.word_bits ≠ word
      unfold ReadInt57
      rw [longestBuilt_key t0 ps hii hwf hmask2 hwords j hjN]
      exact hmiss j hjN hj1 hj2
    unfold BitPackedLongest.Find
    rw [hsearch]
  · intro t lo word prob0
    unfold BitPackedLongest.Find
    rw [hempty]

/-- C9: implicit frame property of `Find` on a miss.  When the terminal
table's `Find` reports "not found" its `prob` output is the value passed in,
and when the non-terminal table's `Find` reports "not found" its `prob`,
`backoff`, and `next_range` outputs are the values passed in: no partial
decode happens before the search succeeds. -/
theorem claim_C9_miss_leaves_outputs :
    (∀ (t : BitPacked) (range : NodeRange) (word prob0 : Nat),
      (BitPackedLongest.Find t range word prob0).1 = false →
      BitPackedLongest.Find t range word prob0 = (false, prob0)) ∧
    (∀ (t : BitPackedMiddle) (range : NodeRange) (word prob0 backoff0 : Nat)
        (nr0 : NodeRange),
      (t.Find range word prob0 backoff0 nr0).1 = false →
      t.Find range word prob0 backoff0 nr0 = (false, prob0, backoff0, nr0)) := by
  constructor
  · intro t range word prob0 hmiss
    unfold BitPackedLongest.Find at hmiss ⊢
    rcases hcase : FindBitPacked t.base t.word_bits t.total_bits
        range.begin_ range.end_ word with _ | i
    · rfl
    · rw [hcase] at hmiss
      simp at hmiss
  · intro t range word prob0 backoff0 nr0 hmiss
    unfold BitPackedMiddle.Find at hmiss ⊢
    rcases hcase : FindBitPacked t.base t.word_bits t.total_bits
        range.begin_ range.end_ word with _ | i
    · rfl
    · rw [hcase] at hmiss
      simp at hmiss

/-- C10: implicit frame property of `Insert`.  Each `Insert` advances the
cursor by exactly one and writes only inside the bit span
`[insert_index * total_bits, (insert_index + 1) * total_bits)` of the
current record, so (under the preconditions `word ≤ word_mask` and
`next ≤ next_mask`) the fields of every previously inserted record, as
observed by `Find`'s field reads, are unchanged by any sequence of later
`Insert` calls. -/
theorem claim_C10_insert_frame :
    (∀ (t : BitPacked) (word prob : Nat), LongestWF t → word ≤ t.word_mask →
      (BitPackedLongest.Insert t word prob).insert_index = t.insert_index + 1 ∧
      (∀ i, i < t.insert_index * t.total_bits ∨
          (t.insert_index + 1) * t.total_bits ≤ i →
        (BitPackedLongest.Insert t word prob).base i = t.base i) ∧
      (∀ (ps : List (Nat × Nat)) (j : Nat), j < t.insert_index →
        readBits (insertAllLongest t ps).base (j * t.total_bits) t.word_bits
          = readBits t.base (j * t.total_bits) t.word_bits ∧
        readBits (insertAllLongest t ps).base (j * t.total_bits + t.word_bits) 31
          = readBits t.base (j * t.total_bits + t.word_bits) 31)) ∧
    (∀ (t : BitPackedMiddle) (word prob backoff next : Nat), MiddleWF t →
      word ≤ t.word_mask → next ≤ t.next_mask →
      (t.Insert word prob backoff next).insert_index = t.insert_index + 1 ∧
      (∀ i, i < t.insert_index * t.total_bits ∨
          (t.insert_index + 1) * t.total_bits ≤ i →
        (t.Insert word prob backoff next).base i = t.base i) ∧
      (∀ (ps : List MiddleEntry) (j : Nat), j < t.insert_index →
        readBits (insertAllMiddle t ps).base (j * t.total_bits) t.word_bits
          = readBits t.base (j * t.total_bits) t.word_bits ∧
        readBits (insertAllMiddle t ps).base (j * t.total_bits + t.word_bits) 31
          = readBits t.base (j * t.total_bits + t.word_bits) 31 ∧
        readBits (insertAllMiddle t ps).base (j * t.total_bits + t.word_bits + 31) 32
          = readBits t.base (j * t.total_bits + t.word_bits + 31) 32 ∧
        readBits (insertAllMiddle t ps).base
          (j * t.total_bits + t.word_bits + 63) t.next_bits
          = readBits t.base (j * t.total_bits + t.word_bits + 63) t.next_bits)) := by
  constructor
  · intro t word prob hwf _
    have hT : t.total_bits = t.word_bits + 31 := hwf
    refine ⟨rfl, ?_, ?_⟩
    · intro i hi
      have hbase : (BitPackedLongest.Insert t word prob).base =
          writeBits (writeBits t.base (t.insert_index * t.total_bits) t.word_bits word)
            (t.insert_index * t.total_bits + t.word_bits) 31 prob := rfl
      rw [hbase]
      have hsucc : (t.insert_index + 1) * t.total_bits
          = t.insert_index * t.total_bits + t.total_bits := Nat.succ_mul _ _
      rw [hsucc] at hi
      rw [writeBits_apply_of_notin _ _ _ _ _ (by omega),
        writeBits_apply_of_notin _ _ _ _ _ (by omega)]
    · intro ps j hj
      obtain ⟨_, _, _, _, _, hframe, _⟩ := insertAllLongest_spec ps t hwf
      have hstep : (j + 1) * t.total_bits ≤ t.insert_index * t.total_bits :=
        Nat.mul_le_mul_right _ (by omega)
      rw [Nat.succ_mul] at hstep
      exact ⟨hframe _ _ (by omega), hframe _ _ (by omega)⟩
  · intro t word prob backoff next hwf _ _
    have hT : t.total_bits = t.word_bits + 31 + 32 + t.next_bits := hwf.2.2
    refine ⟨rfl, ?_, ?_⟩
    · intro i hi
      have hbase : (t.Insert word prob backoff next).base =
          writeBits (writeBits (writeBits (writeBits t.base
            (t.insert_index * t.total_bits) t.word_bits word)
            (t.insert_index * t.total_bits + t.word_bits) 31 prob)
            (t.insert_index * t.total_bits + t.word_bits + t.prob_bits) 32 backoff)
            (t.insert_index * t.total_bits + t.word_bits + t.prob_bits + t.backoff_bits)
            t.next_bits next := rfl
      rw [hbase, hwf.1, hwf.2.1]
      have hsucc : (t.insert_index + 1) * t.total_bits
          = t.insert_index * t.total_bits + t.total_bits := Nat.succ_mul _ _
      rw [hsucc] at hi
      rw [writeBits_apply_of_notin _ _ _ _ _ (by omega),
        writeBits_apply_of_notin _ _ _ _ _ (by omega),
        writeBits_apply_of_notin _ _ _ _ _ (by omega),
        writeBits_apply_of_notin _ _ _ _ _ (by omega)]
    · intro ps j hj
      obtain ⟨_, _, _, _, _, _, _, _, hframe, _⟩ := insertAllMiddle_spec ps t hwf
      have hstep : (j + 1) * t.total_bits ≤ t.insert_index * t.total_bits :=
        Nat.mul_le_mul_right _ (by omega)
      rw [Nat.succ_mul] at hstep
      exact ⟨hframe _ _ (by omega), hframe _ _ (by omega), hframe _ _ (by omega),
        hframe _ _ (by omega)⟩

/-- C8: insert-time range checking is absent.  `Insert` is a total operation
in both tables: for any word id or pointer value, even one strictly above
the field's mask, the call reports no failure, performs the bit-field write
(masked to the field width), and advances the cursor.  (The C++ `assert`s
vanish under `NDEBUG`; the one on the `next` pointer even names a
non-existent identifier, so the file only compiles with assertions
disabled.) -/
theorem claim_C8_insert_unchecked :
    (∀ (t : BitPacked) (word prob : Nat), t.word_mask < word →
      (BitPackedLongest.Insert t word prob).insert_index = t.insert_index + 1 ∧
      readBits (BitPackedLongest.Insert t word prob).base
        (t.insert_index * t.total_bits) t.word_bits = word % 2 ^ t.word_bits) ∧
    (∀ (t : BitPackedMiddle) (word prob backoff next : Nat),
      t.prob_bits = 31 → t.backoff_bits = 32 → t.next_mask < next →
      (t.Insert word prob backoff next).insert_index = t.insert_index + 1 ∧
      readBits (t.Insert word prob backoff next).base
        (t.insert_index * t.total_bits + t.word_bits + 63) t.next_bits
        = next % 2 ^ t.next_bits) := by
  constructor
  · intro t word prob _
    obtain ⟨_, hword, _⟩ := LongestInsert_reads t word prob
    exact ⟨rfl, hword⟩
  · intro t word prob backoff next hp hb _
    obtain ⟨_, _, _, _, hnext⟩ := MiddleInsert_reads t word prob backoff next hp hb
    exact ⟨rfl, hnext⟩

theorem RequiredBits_pos (n : Nat) (h : 1 ≤ n) : 1 ≤ RequiredBits n := by
  unfold RequiredBits bitsAux
  rw [if_neg (by omega : n ≠ 0)]
  omega

theorem BaseSize_eq_of_bounds (entries max_vocab remaining_bits : Nat)
    (h255 : RequiredBits max_vocab + 31 + remaining_bits ≤ 255)
    (hov : (1 + entries) * (RequiredBits max_vocab + 31 + remaining_bits) + 7 < 2 ^ 64) :
    BitPacked.BaseSize entries max_vocab remaining_bits
      = ((1 + entries) * (RequiredBits max_vocab + 31 + remaining_bits) + 7) / 8 + 8 := by
  unfold BitPacked.BaseSize
  have hW1 : 1 ≤ RequiredBits max_vocab + 31 + remaining_bits := by omega
  have h1e : 1 + entries < 2 ^ 64 := by
    have hle : 1 + entries
        ≤ (1 + entries) * (RequiredBits max_vocab + 31 + remaining_bits) :=
      Nat.le_mul_of_pos_right _ (by omega)
    omega
  rw [Nat.mod_eq_of_lt (by omega :
    RequiredBits max_vocab + 31 + remaining_bits < 256)]
  rw [Nat.mod_eq_of_lt h1e]
  rw [Nat.mod_eq_of_lt (by omega :
    (1 + entries) * (RequiredBits max_vocab + 31 + remaining_bits) < 2 ^ 64)]
  rw [Nat.mod_eq_of_lt (by omega :
    (1 + entries) * (RequiredBits max_vocab + 31 + remaining_bits) + 7 < 2 ^ 64)]

/-- C3, counterexample: the claim's size formula fails as universally stated,
because `total_bits` is computed in an 8-bit field.  At
`entries = 0, max_vocab = 1, remaining_bits = 255` the code yields 12 bytes
while the claimed formula yields 44. -/
theorem claim_C3_counterexample :
    BitPacked.BaseSize 0 1 255 = 12 ∧
    ((1 + 0) * (RequiredBits 1 + 31 + 255) + 7) / 8 + 8 = 44 ∧
    BitPacked.BaseSize 0 1 255
      ≠ ((1 + 0) * (RequiredBits 1 + 31 + 255) + 7) / 8 + 8 := by
  refine ⟨by decide, by decide, by decide⟩

/-- C3, amended: the base size equals
`ceil((entries+1) * total_bits / 8) + 8` with
`total_bits = RequiredBits max_vocab + 31 + remaining_bits`, provided
`total_bits` fits the 8-bit field (`≤ 255`) and the bit count does not
overflow 64-bit arithmetic; the non-terminal table's size always satisfies
the 8-bit bound and equals the base formula with
`remaining_bits = 32 + RequiredBits max_ptr` under the same 64-bit bound. -/
theorem claim_C3_size_formula :
    (∀ (entries max_vocab remaining_bits : Nat), 1 ≤ max_vocab →
      RequiredBits max_vocab + 31 + remaining_bits ≤ 255 →
      (1 + entries) * (RequiredBits max_vocab + 31 + remaining_bits) + 7 < 2 ^ 64 →
      BitPacked.BaseSize entries max_vocab remaining_bits
        = ((1 + entries) * (RequiredBits max_vocab + 31 + remaining_bits) + 7) / 8
          + 8) ∧
    (∀ (entries max_vocab max_ptr : Nat),
      (1 + entries) * (RequiredBits max_vocab + 31 + (32 + RequiredBits max_ptr)) + 7
        < 2 ^ 64 →
      BitPackedMiddle.Size entries max_vocab max_ptr
        = ((1 + entries) * (RequiredBits max_vocab + 31 + (32 + RequiredBits max_ptr))
            + 7) / 8 + 8) := by
  constructor
  · intro entries max_vocab remaining_bits _ h255 hov
    exact BaseSize_eq_of_bounds entries max_vocab remaining_bits h255 hov
  · intro entries max_vocab max_ptr hov
    unfold BitPackedMiddle.Size
    apply BaseSize_eq_of_bounds
    · have hv := bitsAux_le 64 max_vocab
      have hp := bitsAux_le 64 max_ptr
      unfold RequiredBits
      omega
    · exact hov

/-- C5, counterexample: non-terminal `Init` does not raise the configuration
error "if and only if" `max_next` needs more than 57 bits: with
`max_vocab = 2^57` (58 bits) and `max_next = 1` (1 bit ≤ 57) it still
raises, through the base init's `max_vocab` check. -/
theorem claim_C5_counterexample :
    BitPackedMiddle.Init memZero (2 ^ 57) 1 = none ∧ RequiredBits 1 ≤ 57 := by
  constructor
  · rfl
  · decide

/-- C5, amended: base init raises the fatal configuration error iff
`max_vocab` needs more than 57 bits; non-terminal init raises it iff
`max_next` needs more than 57 bits or `max_vocab` needs more than 57 bits;
and on success the masks cover the full required ranges, so stored values
up to `max_vocab` (resp. `max_next`) are not truncated. -/
theorem claim_C5_init_57bit_limit :
    (∀ (b : Mem) (max_vocab remaining_bits : Nat),
      BitPacked.BaseInit b max_vocab remaining_bits = none ↔
        57 < RequiredBits max_vocab) ∧
    (∀ (b : Mem) (max_vocab max_next : Nat),
      BitPackedMiddle.Init b max_vocab max_next = none ↔
        57 < RequiredBits max_next ∨ 57 < RequiredBits max_vocab) ∧
    (∀ (b : Mem) (max_vocab remaining_bits : Nat) (t : BitPacked),
      max_vocab < 2 ^ 64 →
      BitPacked.BaseInit b max_vocab remaining_bits = some t →
      max_vocab ≤ t.word_mask) ∧
    (∀ (b : Mem) (max_vocab max_next : Nat) (t : BitPackedMiddle),
      max_vocab < 2 ^ 64 → max_next < 2 ^ 64 →
      BitPackedMiddle.Init b max_vocab max_next = some t →
      max_vocab ≤ t.word_mask ∧ max_next ≤ t.next_mask) := by
  refine ⟨?_, ?_, ?_, ?_⟩
  · intro b max_vocab remaining_bits
    unfold BitPacked.BaseInit
    by_cases h : 57 < RequiredBits max_vocab
    · rw [if_pos h]
      simp [h]
    · rw [if_neg h]
      simp [h]
  · intro b max_vocab max_next
    unfold BitPackedMiddle.Init BitPacked.BaseInit
    by_cases hn : 57 < RequiredBits max_next
    · rw [if_pos hn]
      simp [hn]
    · rw [if_neg hn]
      by_cases hv : 57 < RequiredBits max_vocab
      · rw [if_pos hv]
        simp [hn, hv]
      · rw [if_neg hv]
        simp [hn, hv]
  · intro b max_vocab remaining_bits t hv h
    unfold BitPacked.BaseInit at h
    by_cases hgt : 57 < RequiredBits max_vocab
    · rw [if_pos hgt] at h
      exact absurd h (by simp)
    · rw [if_neg hgt] at h
      rw [Option.some_inj] at h
      subst h
      show max_vocab ≤ 2 ^ RequiredBits max_vocab - 1
      have := lt_two_pow_RequiredBits max_vocab hv
      omega
  · intro b max_vocab max_next t hv hn h
    obtain ⟨_, _, hmask, _, _, _, _, _, hnmask, _⟩ :=
      MiddleInit_spec b max_vocab max_next t h
    constructor
    · rw [hmask]
      have := lt_two_pow_RequiredBits max_vocab hv
      omega
    · rw [hnmask]
      have := lt_two_pow_RequiredBits max_next hn
      omega

/-- Modelled from the spec: `util::TokenIter<util::AnyCharacter, true>` over
the delimiters " ," (util/tokenize_piece.hh is not in src/): split the
character sequence at spaces and commas, skipping empty tokens.  The second
argument accumulates the current token in reverse. -/
def tokenSplit : List Char → List Char → List (List Char)
  | [], acc => if acc.isEmpty then [] else [acc.reverse]
  | c :: rest, acc =>
    if c = ' ' ∨ c = ',' then
      if acc.isEmpty then tokenSplit rest [] else acc.reverse :: tokenSplit rest []
    else tokenSplit rest (c :: acc)

/-- Modelled from the spec: `boost::lexical_cast<uint64_t>` on a token:
succeeds exactly on non-empty all-digit tokens, yielding their decimal
value (the 64-bit overflow rejection is not exercised by the claims and is
not modelled). -/
def lexicalCastU64 (tok : List Char) : Option Nat :=
  if !tok.isEmpty && tok.all Char.isDigit then
    some (tok.foldl (fun a c => a * 10 + (c.toNat - 48)) 0)
  else none

/-- The token-parsing loop of `ParsePruning` (src/lm/builder/lmplz_main.cc
lines 40-46): convert each token, propagating the conversion failure. -/
def parseTokens : List (List Char) → Option (List Nat)
  | [] => some []
  | tok :: rest =>
    match lexicalCastU64 tok with
    | none => none
    | some v =>
      match parseTokens rest with
      | none => none
      | some vs => some (v :: vs)

/-- The non-decreasing check of `ParsePruning` (src/lm/builder/lmplz_main.cc
lines 60-65): a running `lower_threshold` starts at 0 and each element must
not fall below it. -/
def nonDecreasingFrom : Nat → List Nat → Bool
  | _, [] => true
  | lower, t :: rest => if lower > t then false else nonDecreasingFrom t rest

/-- `ParsePruning` (src/lm/builder/lmplz_main.cc lines 35-70): parse and
validate the pruning thresholds, returning one count per order.  `none`
models the thrown `util::Exception`.  The checks appear in source order:
token conversion, empty default, too many thresholds, nonzero first
threshold, decreasing sequence; finally the list is padded to `order` by
repeating its last value (`resize(order, back())`). -/
def ParsePruning (param : String) (order : Nat) : Option (List Nat) :=
  match parseTokens (tokenSplit param.data []) with
  | none => none
  | some prune_thresholds =>
    if prune_thresholds.isEmpty then some (List.replicate order 0)
    else if order < prune_thresholds.length then none
    else if prune_thresholds.headD 0 ≠ 0 then none
    else if nonDecreasingFrom 0 prune_thresholds = false then none
    else some (prune_thresholds ++
        List.replicate (order - prune_thresholds.length) (prune_thresholds.getLastD 0))

theorem parseTokens_eq_none (toks : List (List Char)) (tok : List Char)
    (hmem : tok ∈ toks) (hbad : lexicalCastU64 tok = none) :
    parseTokens toks = none := by
  induction toks with
  | nil => cases hmem
  | cons a rest ih =>
    unfold parseTokens
    rcases List.mem_cons.mp hmem with rfl | hmem2
    · rw [hbad]
    · cases ha : lexicalCastU64 a
      · rfl
      · rw [ih hmem2]

theorem ParsePruning_reduce (param : String) (order : Nat) (ts : List Nat)
    (h : parseTokens (tokenSplit param.data []) = some ts) :
    ParsePruning param order =
      if ts.isEmpty then some (List.replicate order 0)
      else if order < ts.length then none
      else if ts.headD 0 ≠ 0 then none
      else if nonDecreasingFrom 0 ts = false then none
      else some (ts ++ List.replicate (order - ts.length) (ts.getLastD 0)) := by
  unfold ParsePruning
  rw [h]

/-- C6: pruning-list parsing, accepted inputs.  For every order an empty
specification yields `order` zeros; a valid specification no longer than
the order is padded to length `order` by repeating its last value;
concretely "0,1,2" with order 5 gives [0,1,2,2,2] and "" with order 3 gives
[0,0,0]. -/
theorem claim_C6_pruning_accepted :
    (∀ order : Nat, ParsePruning "" order = some (List.replicate order 0)) ∧
    (∀ (param : String) (order : Nat) (ts : List Nat),
      parseTokens (tokenSplit param.data []) = some ts →
      ts ≠ [] → ts.length ≤ order → ts.headD 0 = 0 →
      nonDecreasingFrom 0 ts = true →
      ParsePruning param order
        = some (ts ++ List.replicate (order - ts.length) (ts.getLastD 0))) ∧
    ParsePruning "0,1,2" 5 = some [0, 1, 2, 2, 2] ∧
    ParsePruning "" 3 = some [0, 0, 0] := by
  refine ⟨fun order => rfl, ?_, by decide, by decide⟩
  intro param order ts hparse hne hlen hhead hmono
  rw [ParsePruning_reduce param order ts hparse]
  rw [if_neg (by simp [hne] : ¬ts.isEmpty = true)]
  rw [if_neg (by omega : ¬order < ts.length)]
  rw [if_neg (fun hcon => hcon hhead : ¬ts.headD 0 ≠ 0)]
  rw [if_neg (by simp [hmono] : ¬nonDecreasingFrom 0 ts = false)]

/-- C7: pruning-list parsing, rejected inputs.  Parsing yields the failure
value (the thrown exception, before any table is built) when a token is
non-numeric, when more thresholds are given than the model order, when a
non-empty specification's first threshold is nonzero, or when the sequence
decreases; concretely "1 2", "0,2,1", and six thresholds with order 3 are
rejected. -/
theorem claim_C7_pruning_rejected :
    (∀ (param : String) (order : Nat) (tok : List Char),
      tok ∈ tokenSplit param.data [] → lexicalCastU64 tok = none →
      ParsePruning param order = none) ∧
    (∀ (param : String) (order : Nat) (ts : List Nat),
      parseTokens (tokenSplit param.data []) = some ts →
      order < ts.length → ParsePruning param order = none) ∧
    (∀ (param : String) (order : Nat) (ts : List Nat),
      parseTokens (tokenSplit param.data []) = some ts →
      ts ≠ [] → ts.headD 0 ≠ 0 → ParsePruning param order = none) ∧
    (∀ (param : String) (order : Nat) (ts : List Nat),
      parseTokens (tokenSplit param.data []) = some ts →
      nonDecreasingFrom 0 ts = false → ParsePruning param order = none) ∧
    ParsePruning "1 2" 3 = none ∧
    ParsePruning "0,2,1" 3 = none ∧
    ParsePruning "0,0,1,1,2,2" 3 = none := by
  refine ⟨?_, ?_, ?_, ?_, by decide, by decide, by decide⟩
  · intro param order tok hmem hbad
    unfold ParsePruning
    rw [parseTokens_eq_none _ tok hmem hbad]
  · intro param order ts hparse hlen
    rw [ParsePruning_reduce param order ts hparse]
    have hne : ts ≠ [] := by
      intro hnil
      rw [hnil] at hlen
      simp at hlen
    rw [if_neg (by simp [hne] : ¬ts.isEmpty = true)]
    rw [if_pos hlen]
  · intro param order ts hparse hne hhead
    rw [ParsePruning_reduce param order ts hparse]
    rw [if_neg (by simp [hne] : ¬ts.isEmpty = true)]
    by_cases hlen : order < ts.length
    · rw [if_pos hlen]
    · rw [if_neg hlen, if_pos hhead]
  · intro param order ts hparse hmono
    have hne : ts ≠ [] := by
      intro hnil
      rw [hnil] at hmono
      simp [nonDecreasingFrom] at hmono
    rw [ParsePruning_reduce param order ts hparse]
    rw [if_neg (by simp [hne] : ¬ts.isEmpty = true)]
    by_cases hlen : order < ts.length
    · rw [if_pos hlen]
    · rw [if_neg hlen]
      by_cases hhead : ts.headD 0 ≠ 0
      · rw [if_pos hhead]
      · rw [if_neg hhead, if_pos hmono]

theorem claim_C1_roundtrip_witness :
    BitPackedLongest.Find (insertAllLongest ⟨memZero, 2, 3, 31, 33, 0⟩
        [(1, 2 ^ 31), (2, 2 ^ 31 + 5)]) ⟨0, 2⟩ 2 0 = (true, 2 ^ 31 + 5) ∧
    (((insertAllMiddle ⟨memZero, 2, 3, 31, 68, 0, 32, 3, 7⟩
        [⟨1, 2 ^ 31, 5, 2⟩, ⟨2, 2 ^ 31 + 9, 7, 6⟩]).Find ⟨0, 2⟩ 2 0 0 ⟨0, 0⟩).1 = true ∧
      ((insertAllMiddle ⟨memZero, 2, 3, 31, 68, 0, 32, 3, 7⟩
        [⟨1, 2 ^ 31, 5, 2⟩, ⟨2, 2 ^ 31 + 9, 7, 6⟩]).Find ⟨0, 2⟩ 2 0 0 ⟨0, 0⟩).2.1
        = 2 ^ 31 + 9 ∧
      ((insertAllMiddle ⟨memZero, 2, 3, 31, 68, 0, 32, 3, 7⟩
        [⟨1, 2 ^ 31, 5, 2⟩, ⟨2, 2 ^ 31 + 9, 7, 6⟩]).Find ⟨0, 2⟩ 2 0 0 ⟨0, 0⟩).2.2.1 = 7 ∧
      ((insertAllMiddle ⟨memZero, 2, 3, 31, 68, 0, 32, 3, 7⟩
        [⟨1, 2 ^ 31, 5, 2⟩, ⟨2, 2 ^ 31 + 9, 7, 6⟩]).Find ⟨0, 2⟩ 2 0 0
          ⟨0, 0⟩).2.2.2.begin_ = 6) :=
  ⟨claim_C1_roundtrip.1 memZero 3 ⟨memZero, 2, 3, 31, 33, 0⟩
      [(1, 2 ^ 31), (2, 2 ^ 31 + 5)] rfl (by decide) (by decide) (by decide)
      1 (by decide) 0 2 0 (by decide) (by decide) (by decide),
    claim_C1_roundtrip.2 memZero 3 4 ⟨memZero, 2, 3, 31, 68, 0, 32, 3, 7⟩
      [⟨1, 2 ^ 31, 5, 2⟩, ⟨2, 2 ^ 31 + 9, 7, 6⟩] rfl (by decide) (by decide)
      (by decide) (by decide) (by decide)
      1 (by decide) 0 2 0 0 ⟨0, 0⟩ (by decide) (by decide) (by decide)⟩

theorem claim_C2_find_child_range_witness :
    ((insertAllMiddle ⟨memZero, 2, 3, 31, 68, 0, 32, 3, 7⟩
        [⟨1, 2 ^ 31, 5, 2⟩, ⟨2, 2 ^ 31 + 9, 7, 6⟩]).Finish 7).Find ⟨0, 2⟩ 2 0 0 ⟨0, 0⟩
      = (true, 2 ^ 31 + 9, 7, ⟨6, 7⟩) :=
  claim_C2_find_child_range memZero 3 4 ⟨memZero, 2, 3, 31, 68, 0, 32, 3, 7⟩
    [⟨1, 2 ^ 31, 5, 2⟩, ⟨2, 2 ^ 31 + 9, 7, 6⟩] 7 rfl (by decide) (by decide)
    (by decide) (by decide) (by decide) (by decide)
    1 (by decide) 0 2 0 0 ⟨0, 0⟩ (by decide) (by decide) (by decide)

theorem claim_C3_size_formula_witness :
    BitPacked.BaseSize 2 5 10 = ((1 + 2) * (RequiredBits 5 + 31 + 10) + 7) / 8 + 8 ∧
    BitPackedMiddle.Size 1 6 300
      = ((1 + 1) * (RequiredBits 6 + 31 + (32 + RequiredBits 300)) + 7) / 8 + 8 :=
  ⟨claim_C3_size_formula.1 2 5 10 (by decide) (by decide) (by decide),
    claim_C3_size_formula.2 1 6 300 (by decide)⟩

theorem claim_C4_find_not_found_witness :
    BitPackedLongest.Find (insertAllLongest ⟨memZero, 2, 3, 31, 33, 0⟩
        [(1, 2 ^ 31)]) ⟨0, 1⟩ 2 42 = (false, 42) ∧
    BitPackedLongest.Find ⟨memZero, 2, 3, 31, 33, 0⟩ ⟨5, 5⟩ 1 3 = (false, 3) ∧
    FindBitPacked memZero 2 33 4 4 1 = none :=
  ⟨claim_C4_find_not_found.1 memZero 3 ⟨memZero, 2, 3, 31, 33, 0⟩ [(1, 2 ^ 31)]
      rfl (by decide) (by decide) 0 1 2 42 (by decide)
      (by
        intro j hj h1 h2
        have hj0 : j = 0 := by omega
        subst hj0
        show (1 : Nat) ≠ 2
        decide),
    claim_C4_find_not_found.2.1 ⟨memZero, 2, 3, 31, 33, 0⟩ 5 1 3,
    claim_C4_find_not_found.2.2 memZero 2 33 4 1⟩

theorem claim_C5_init_57bit_limit_witness :
    5 ≤ (⟨memZero, 3, 7, 31, 34, 0⟩ : BitPacked).word_mask ∧
    (3 ≤ (⟨memZero, 2, 3, 31, 68, 0, 32, 3, 7⟩ : BitPackedMiddle).word_mask ∧
      4 ≤ (⟨memZero, 2, 3, 31, 68, 0, 32, 3, 7⟩ : BitPackedMiddle).next_mask) :=
  ⟨claim_C5_init_57bit_limit.2.2.1 memZero 5 0 ⟨memZero, 3, 7, 31, 34, 0⟩
      (by decide) rfl,
    claim_C5_init_57bit_limit.2.2.2 memZero 3 4 ⟨memZero, 2, 3, 31, 68, 0, 32, 3, 7⟩
      (by decide) (by decide) rfl⟩

theorem claim_C6_pruning_accepted_witness :
    ParsePruning "0,1" 4 = some [0, 1, 1, 1] :=
  claim_C6_pruning_accepted.2.1 "0,1" 4 [0, 1] (by decide) (by decide) (by decide)
    (by decide) (by decide)

theorem claim_C7_pruning_rejected_witness :
    ParsePruning "0,x" 3 = none ∧ ParsePruning "0,1,2,3" 3 = none ∧
    ParsePruning "4,5" 3 = none ∧ ParsePruning "0,3,2" 3 = none :=
  ⟨claim_C7_pruning_rejected.1 "0,x" 3 ['x'] (by decide) (by decide),
    claim_C7_pruning_rejected.2.1 "0,1,2,3" 3 [0, 1, 2, 3] (by decide) (by decide),
    claim_C7_pruning_rejected.2.2.1 "4,5" 3 [4, 5] (by decide) (by decide) (by decide),
    claim_C7_pruning_rejected.2.2.2.1 "0,3,2" 3 [0, 3, 2] (by decide) (by decide)⟩

theorem claim_C8_insert_unchecked_witness :
    ((BitPackedLongest.Insert ⟨memZero, 2, 3, 31, 33, 0⟩ 9 0).insert_index = 1 ∧
      readBits (BitPackedLongest.Insert ⟨memZero, 2, 3, 31, 33, 0⟩ 9 0).base 0 2
        = 9 % 2 ^ 2) ∧
    ((BitPackedMiddle.Insert ⟨memZero, 2, 3, 31, 68, 0, 32, 3, 7⟩ 1 0 0 9).insert_index
        = 1 ∧
      readBits (BitPackedMiddle.Insert ⟨memZero, 2, 3, 31, 68, 0, 32, 3, 7⟩
        1 0 0 9).base 65 3 = 9 % 2 ^ 3) :=
  ⟨claim_C8_insert_unchecked.1 ⟨memZero, 2, 3, 31, 33, 0⟩ 9 0 (by decide),
    claim_C8_insert_unchecked.2 ⟨memZero, 2, 3, 31, 68, 0, 32, 3, 7⟩ 1 0 0 9
      rfl rfl (by decide)⟩

theorem claim_C9_miss_leaves_outputs_witness :
    BitPackedLongest.Find ⟨memZero, 2, 3, 31, 33, 0⟩ ⟨0, 0⟩ 1 42 = (false, 42) ∧
    BitPackedMiddle.Find ⟨memZero, 2, 3, 31, 68, 0, 32, 3, 7⟩ ⟨0, 0⟩ 1 5 6 ⟨1, 2⟩
      = (false, 5, 6, ⟨1, 2⟩) :=
  ⟨claim_C9_miss_leaves_outputs.1 ⟨memZero, 2, 3, 31, 33, 0⟩ ⟨0, 0⟩ 1 42 (by decide),
    claim_C9_miss_leaves_outputs.2 ⟨memZero, 2, 3, 31, 68, 0, 32, 3, 7⟩ ⟨0, 0⟩
      1 5 6 ⟨1, 2⟩ (by decide)⟩

theorem claim_C10_insert_frame_witness :
    ((BitPackedLongest.Insert ⟨memZero, 2, 3, 31, 33, 0⟩ 2 0).insert_index = 1 ∧
      (BitPackedLongest.Insert ⟨memZero, 2, 3, 31, 33, 0⟩ 2 0).base 40
        = (⟨memZero, 2, 3, 31, 33, 0⟩ : BitPacked).base 40 ∧
      readBits (insertAllLongest ⟨memZero, 2, 3, 31, 33, 1⟩ [(3, 5)]).base 0 2
        = readBits (⟨memZero, 2, 3, 31, 33, 1⟩ : BitPacked).base 0 2) ∧
    ((BitPackedMiddle.Insert ⟨memZero, 2, 3, 31, 68, 0, 32, 3, 7⟩ 2 0 0 3).insert_index
        = 1 ∧
      (BitPackedMiddle.Insert ⟨memZero, 2, 3, 31, 68, 0, 32, 3, 7⟩ 2 0 0 3).base 70
        = (⟨memZero, 2, 3, 31, 68, 0, 32, 3, 7⟩ : BitPackedMiddle).base 70 ∧
      readBits (insertAllMiddle ⟨memZero, 2, 3, 31, 68, 1, 32, 3, 7⟩
          [⟨3, 5, 6, 7⟩]).base 0 2
        = readBits (⟨memZero, 2, 3, 31, 68, 1, 32, 3, 7⟩ : BitPackedMiddle).base 0 2) :=
  ⟨⟨(claim_C10_insert_frame.1 ⟨memZero, 2, 3, 31, 33, 0⟩ 2 0 rfl (by decide)).1,
      (claim_C10_insert_frame.1 ⟨memZero, 2, 3, 31, 33, 0⟩ 2 0 rfl (by decide)).2.1
        40 (Or.inr (by decide)),
      ((claim_C10_insert_frame.1 ⟨memZero, 2, 3, 31, 33, 1⟩ 2 0 rfl (by decide)).2.2
        [(3, 5)] 0 (by decide)).1⟩,
    ⟨(claim_C10_insert_frame.2 ⟨memZero, 2, 3, 31, 68, 0, 32, 3, 7⟩ 2 0 0 3
        ⟨rfl, rfl, rfl⟩ (by decide) (by decide)).1,
      (claim_C10_insert_frame.2 ⟨memZero, 2, 3, 31, 68, 0, 32, 3, 7⟩ 2 0 0 3
        ⟨rfl, rfl, rfl⟩ (by decide) (by decide)).2.1 70 (Or.inr (by decide)),
      ((claim_C10_insert_frame.2 ⟨memZero, 2, 3, 31, 68, 1, 32, 3, 7⟩ 2 0 0 3
        ⟨rfl, rfl, rfl⟩ (by decide) (by decide)).2.2 [⟨3, 5, 6, 7⟩] 0 (by decide)).1⟩⟩
